import Mathlib

/-!
Verification of the gchat transcript/negotiation engine (src/main.rs).

Text is modelled as `List Char` (Rust `String`/`&str`); the filesystem,
the HTTP transport and path canonicalization are modelled as explicit
oracle parameters.  Regex directive matching (`@t\s*:\s*L(\d+)`,
`@p\s*:\s*(\d*\.?\d+)`, `@f\s*:(\S+)|@d\s*:(\S+)`) is embedded as
deterministic leftmost scanners with the same match semantics as the
`regex` crate on these patterns.  `f32` values are modelled as exact
rationals.
-/

namespace Gchat

/-- Text is modelled as a list of characters (Rust `String`/`&str`). -/
abbrev Str := List Char

/-- Convert a Lean string literal to the character-list model. -/
def strL (s : String) : Str := s.data

/-- Whitespace test, modelling Rust `char::is_whitespace` and the regex
class `\s` on the ASCII range (the Unicode-only cases are irrelevant to
the properties proved here). -/
def wsChar (c : Char) : Bool :=
  c = ' ' || c = '\t' || c = '\n' || c = '\r' || c = '\x0b' || c = '\x0c'

/-- ASCII digit, modelling the characters accepted by `str::parse::<u32>`
and matched by `\d` on ASCII input. -/
def isDigitCh (c : Char) : Bool := '0' ≤ c && c ≤ '9'

/-- Rust `str::trim_end` (whitespace stripped from the right). -/
def trimRightStr (s : Str) : Str := (s.reverse.dropWhile wsChar).reverse

/-- Rust `str::trim`: whitespace stripped from both ends. -/
def trimStr (s : Str) : Str := (trimRightStr s).dropWhile wsChar

/-- Split on a separator character, keeping empty pieces, modelling Rust
`str::split(sep)` (which yields at least one piece, and empty pieces
between adjacent separators). -/
def splitOnChar (sep : Char) : Str → List Str
  | [] => [[]]
  | c :: cs =>
    if c = sep then [] :: splitOnChar sep cs
    else
      match splitOnChar sep cs with
      | p :: ps => (c :: p) :: ps
      | [] => [[c]]

/-- Split at newlines, keeping all pieces (helper for `rustLines`). -/
def splitNl : Str → List Str := splitOnChar '\n'

/-- Does a line end in a carriage return? -/
def endsCr (l : Str) : Bool := l.getLast? = some '\r'

/-- Strip one trailing carriage return, as Rust `str::lines` does for
lines terminated by `\r\n`. -/
def stripCr (l : Str) : Str := if l.getLast? = some '\r' then l.dropLast else l

/-- Post-process the pieces of `splitNl` the way Rust `str::lines` does:
every newline-terminated piece has a trailing `\r` stripped, and the
final piece is dropped when it is empty (trailing newline optional). -/
def finishLines : List Str → List Str
  | [] => []
  | [l] => if l = [] then [] else [l]
  | l :: l' :: ls => stripCr l :: finishLines (l' :: ls)

/-- Rust `str::lines`. -/
def rustLines (s : Str) : List Str := finishLines (splitNl s)

/-- Substring test, modelling Rust `str::contains(pat)`. -/
def containsStr (pat : Str) : Str → Bool
  | [] => pat.isEmpty
  | c :: cs => pat.isPrefixOf (c :: cs) || containsStr pat cs

/-- Numeric value of a digit string. -/
def natOfDigits (ds : Str) : Nat := ds.foldl (fun a c => a * 10 + (c.toNat - 48)) 0

/-- Rust `str::parse::<u32>`: an optional leading `+`, then at least one
ASCII digit, and the value must fit in 32 bits. -/
def parseU32 (s : Str) : Option Nat :=
  let ds := match s with
            | '+' :: rest => rest
            | rest => rest
  if ds = [] then none
  else if ds.all isDigitCh then
    let v := natOfDigits ds
    if v < 2 ^ 32 then some v else none
  else none

/-! ### Directive matchers

Each matcher recognises one regex pattern at the start of the input and
returns `(matched span, semantic value, rest of input)`. -/

/-- Consume one expected character. -/
def expectChar (a : Char) : Str → Option Str
  | c :: cs => if c = a then some cs else none
  | [] => none

theorem expectChar_sound {a : Char} {s r : Str} (h : expectChar a s = some r) :
    s = a :: r := by
  cases s with
  | nil => simp [expectChar] at h
  | cons c cs =>
    by_cases hc : c = a
    · simp [expectChar, hc] at h
      simp [hc, h]
    · simp [expectChar, hc] at h

/-- Matcher for `@t\s*:\s*L(\d+)` at the start of the input.  The value
is the `u32` parse of the captured digits (`none` when the digits
overflow `u32`, in which case the Rust code strips the match but records
no level). -/
def tryT (s : Str) : Option (Str × Option Nat × Str) :=
  match expectChar '@' s with
  | none => none
  | some s1 =>
  match expectChar 't' s1 with
  | none => none
  | some s2 =>
  match expectChar ':' (s2.dropWhile wsChar) with
  | none => none
  | some s3 =>
  match expectChar 'L' (s3.dropWhile wsChar) with
  | none => none
  | some s4 =>
  if s4.takeWhile isDigitCh = [] then none
  else
    some ('@' :: 't' :: (s2.takeWhile wsChar ++ ':' :: (s3.takeWhile wsChar ++ 'L' :: s4.takeWhile isDigitCh)),
          parseU32 (s4.takeWhile isDigitCh), s4.dropWhile isDigitCh)

/-- Greedy-with-backtracking matcher for the capture `(\d*\.?\d+)`:
returns the captured number text and the rest. -/
def matchNum (s : Str) : Option (Str × Str) :=
  match expectChar '.' (s.dropWhile isDigitCh) with
  | some s2 =>
    if s2.takeWhile isDigitCh = [] then
      (if s.takeWhile isDigitCh = [] then none
       else some (s.takeWhile isDigitCh, s.dropWhile isDigitCh))
    else some (s.takeWhile isDigitCh ++ '.' :: s2.takeWhile isDigitCh, s2.dropWhile isDigitCh)
  | none =>
    if s.takeWhile isDigitCh = [] then none
    else some (s.takeWhile isDigitCh, s.dropWhile isDigitCh)

/-- Exact rational value of a captured decimal number (the Rust code
parses it with `str::parse::<f32>`, which always succeeds on the shapes
matched by `(\d*\.?\d+)`; we model the value exactly). -/
def qOfCapture (cap : Str) : ℚ :=
  match splitOnChar '.' cap with
  | [ip] => mkRat (natOfDigits ip) 1
  | [ip, fp] => mkRat (natOfDigits ip * 10 ^ fp.length + natOfDigits fp) (10 ^ fp.length)
  | _ => 0

/-- Matcher for `@p\s*:\s*(\d*\.?\d+)` at the start of the input. -/
def tryP (s : Str) : Option (Str × Option ℚ × Str) :=
  match expectChar '@' s with
  | none => none
  | some s1 =>
  match expectChar 'p' s1 with
  | none => none
  | some s2 =>
  match expectChar ':' (s2.dropWhile wsChar) with
  | none => none
  | some s3 =>
  match matchNum (s3.dropWhile wsChar) with
  | none => none
  | some (cap, rest) =>
    some ('@' :: 'p' :: (s2.takeWhile wsChar ++ ':' :: (s3.takeWhile wsChar ++ cap)),
          some (qOfCapture cap), rest)

/-- A file-inclusion or directory-tree placeholder. -/
inductive PH where
  | f (path : Str)
  | d (path : Str)
deriving DecidableEq

/-- Matcher for one alternation branch `@<tag>\s*:(\S+)`. -/
def tryFDtag (tag : Char) (mk : Str → PH) (s : Str) : Option (Str × PH × Str) :=
  match expectChar '@' s with
  | none => none
  | some s1 =>
  match expectChar tag s1 with
  | none => none
  | some s2 =>
  match expectChar ':' (s2.dropWhile wsChar) with
  | none => none
  | some s3 =>
  if s3.takeWhile (fun c => !wsChar c) = [] then none
  else
    some ('@' :: tag :: (s2.takeWhile wsChar ++ ':' :: s3.takeWhile (fun c => !wsChar c)),
          mk (s3.takeWhile (fun c => !wsChar c)), s3.dropWhile (fun c => !wsChar c))

/-- Matcher for `@f\s*:(\S+)|@d\s*:(\S+)` (leftmost-first alternation). -/
def tryFD (s : Str) : Option (Str × PH × Str) :=
  match tryFDtag 'f' PH.f s with
  | some res => some res
  | none => tryFDtag 'd' PH.d s

/-! ### Generic leftmost scanner

`captures_iter` of the `regex` crate yields the leftmost non-overlapping
matches; scanning resumes right after each match. -/

/-- A decomposition element: an unmatched character, or one match with
its span text and semantic value. -/
inductive Piece (α : Type) where
  | lit (c : Char)
  | tok (matched : Str) (val : α)
deriving DecidableEq

def pieceText {α : Type} : Piece α → Str
  | .lit c => [c]
  | .tok m _ => m

/-- Reassemble the full input from a decomposition. -/
def flattenPieces {α : Type} (ps : List (Piece α)) : Str := (ps.map pieceText).flatten

/-- The unmatched characters, in order (the text with every matched span
deleted: the Rust code deletes the collected ranges in reverse order,
which leaves exactly the unmatched spans). -/
def litsOf {α : Type} (ps : List (Piece α)) : Str :=
  ps.filterMap fun p => match p with
    | .lit c => some c
    | .tok _ _ => none

/-- The values of the matches, in match order. -/
def valsOf {α : Type} (ps : List (Piece α)) : List α :=
  ps.filterMap fun p => match p with
    | .tok _ v => some v
    | .lit _ => none

/-- Leftmost scan with explicit fuel (each step consumes at least one
character, so `fuel = length` suffices). -/
def scanGo {α : Type} (tm : Str → Option (Str × α × Str)) : Nat → Str → List (Piece α)
  | 0, _ => []
  | _ + 1, [] => []
  | n + 1, c :: cs =>
    match tm (c :: cs) with
    | some (m, v, r) => .tok m v :: scanGo tm n r
    | none => .lit c :: scanGo tm n cs

/-- Decompose a string into unmatched characters and leftmost
non-overlapping matches of `tm`. -/
def scanWith {α : Type} (tm : Str → Option (Str × α × Str)) (s : Str) : List (Piece α) :=
  scanGo tm s.length s

/-- A matcher is sound when a reported match really is a prefix
decomposition of the input and is non-empty. -/
def TMSound {α : Type} (tm : Str → Option (Str × α × Str)) : Prop :=
  ∀ s m v r, tm s = some (m, v, r) → s = m ++ r ∧ m ≠ []

theorem tryT_sound : TMSound tryT := by
  intro s m v r h
  simp only [tryT] at h
  cases h1 : expectChar '@' s with
  | none => simp [h1] at h
  | some s1 =>
    simp only [h1] at h
    cases h2 : expectChar 't' s1 with
    | none => simp [h2] at h
    | some s2 =>
      simp only [h2] at h
      cases h3 : expectChar ':' (s2.dropWhile wsChar) with
      | none => simp [h3] at h
      | some s3 =>
        simp only [h3] at h
        cases h4 : expectChar 'L' (s3.dropWhile wsChar) with
        | none => simp [h4] at h
        | some s4 =>
          simp only [h4] at h
          by_cases h5 : s4.takeWhile isDigitCh = []
          · simp [h5] at h
          · rw [if_neg h5] at h
            simp only [Option.some.injEq, Prod.mk.injEq] at h
            obtain ⟨hm, _, hr⟩ := h
            constructor
            · subst hm hr
              have e1 := expectChar_sound h1
              have e2 := expectChar_sound h2
              have e3 := expectChar_sound h3
              have e4 := expectChar_sound h4
              have t2 : s2.takeWhile wsChar ++ s2.dropWhile wsChar = s2 :=
                List.takeWhile_append_dropWhile _ _
              have t3 : s3.takeWhile wsChar ++ s3.dropWhile wsChar = s3 :=
                List.takeWhile_append_dropWhile _ _
              have t4 : s4.takeWhile isDigitCh ++ s4.dropWhile isDigitCh = s4 :=
                List.takeWhile_append_dropWhile _ _
              subst e1 e2
              conv_lhs => rw [← t2, e3, ← t3, e4, ← t4]
              simp [List.cons_append, List.append_assoc]
            · subst hm; simp

theorem matchNum_sound {s cap rest : Str} (h : matchNum s = some (cap, rest)) :
    s = cap ++ rest ∧ cap ≠ [] := by
  simp only [matchNum] at h
  have ts : s.takeWhile isDigitCh ++ s.dropWhile isDigitCh = s :=
    List.takeWhile_append_dropWhile _ _
  cases hdot : expectChar '.' (s.dropWhile isDigitCh) with
  | none =>
    simp only [hdot] at h
    by_cases h1 : s.takeWhile isDigitCh = []
    · simp [h1] at h
    · rw [if_neg h1] at h
      simp only [Option.some.injEq, Prod.mk.injEq] at h
      obtain ⟨hc, hr⟩ := h
      subst hc hr
      exact ⟨ts.symm, h1⟩
  | some s2 =>
    simp only [hdot] at h
    have e2 := expectChar_sound hdot
    have t2 : s2.takeWhile isDigitCh ++ s2.dropWhile isDigitCh = s2 :=
      List.takeWhile_append_dropWhile _ _
    by_cases h2 : s2.takeWhile isDigitCh = []
    · rw [if_pos h2] at h
      by_cases h1 : s.takeWhile isDigitCh = []
      · simp [h1] at h
      · rw [if_neg h1] at h
        simp only [Option.some.injEq, Prod.mk.injEq] at h
        obtain ⟨hc, hr⟩ := h
        subst hc hr
        exact ⟨ts.symm, h1⟩
    · rw [if_neg h2] at h
      simp only [Option.some.injEq, Prod.mk.injEq] at h
      obtain ⟨hc, hr⟩ := h
      subst hc hr
      constructor
      · conv_lhs => rw [← ts, e2, ← t2]
        simp
      · simp

theorem tryP_sound : TMSound tryP := by
  intro s m v r h
  simp only [tryP] at h
  cases h1 : expectChar '@' s with
  | none => simp [h1] at h
  | some s1 =>
    simp only [h1] at h
    cases h2 : expectChar 'p' s1 with
    | none => simp [h2] at h
    | some s2 =>
      simp only [h2] at h
      cases h3 : expectChar ':' (s2.dropWhile wsChar) with
      | none => simp [h3] at h
      | some s3 =>
        simp only [h3] at h
        cases h4 : matchNum (s3.dropWhile wsChar) with
        | none => simp [h4] at h
        | some capRest =>
          obtain ⟨cap, rest⟩ := capRest
          simp only [h4] at h
          simp only [Option.some.injEq, Prod.mk.injEq] at h
          obtain ⟨hm, _, hr⟩ := h
          obtain ⟨hsplit, hne⟩ := matchNum_sound h4
          constructor
          · subst hm hr
            have e1 := expectChar_sound h1
            have e2 := expectChar_sound h2
            have e3 := expectChar_sound h3
            have t2 : s2.takeWhile wsChar ++ s2.dropWhile wsChar = s2 :=
              List.takeWhile_append_dropWhile _ _
            have t3 : s3.takeWhile wsChar ++ s3.dropWhile wsChar = s3 :=
              List.takeWhile_append_dropWhile _ _
            subst e1 e2
            conv_lhs => rw [← t2, e3, ← t3, hsplit]
            simp [List.cons_append, List.append_assoc]
          · subst hm; simp

theorem tryFDtag_sound {tag : Char} {mk : Str → PH} {s : Str} {m : Str} {v : PH} {r : Str}
    (h : tryFDtag tag mk s = some (m, v, r)) : s = m ++ r ∧ m ≠ [] := by
  simp only [tryFDtag] at h
  cases h1 : expectChar '@' s with
  | none => simp [h1] at h
  | some s1 =>
    simp only [h1] at h
    cases h2 : expectChar tag s1 with
    | none => simp [h2] at h
    | some s2 =>
      simp only [h2] at h
      cases h3 : expectChar ':' (s2.dropWhile wsChar) with
      | none => simp [h3] at h
      | some s3 =>
        simp only [h3] at h
        by_cases h5 : s3.takeWhile (fun c => !wsChar c) = []
        · simp [h5] at h
        · rw [if_neg h5] at h
          simp only [Option.some.injEq, Prod.mk.injEq] at h
          obtain ⟨hm, _, hr⟩ := h
          constructor
          · subst hm hr
            have e1 := expectChar_sound h1
            have e2 := expectChar_sound h2
            have e3 := expectChar_sound h3
            have t2 : s2.takeWhile wsChar ++ s2.dropWhile wsChar = s2 :=
              List.takeWhile_append_dropWhile _ _
            have t3 : s3.takeWhile (fun c => !wsChar c) ++ s3.dropWhile (fun c => !wsChar c) = s3 :=
              List.takeWhile_append_dropWhile _ _
            subst e1 e2
            conv_lhs => rw [← t2, e3, ← t3]
            simp [List.cons_append, List.append_assoc]
          · subst hm; simp

theorem tryFD_sound : TMSound tryFD := by
  intro s m v r h
  simp only [tryFD] at h
  cases hf : tryFDtag 'f' PH.f s with
  | some res =>
    rw [hf] at h
    simp only [Option.some.injEq] at h
    subst h
    exact tryFDtag_sound hf
  | none =>
    rw [hf] at h
    exact tryFDtag_sound h

theorem scanGo_flatten {α : Type} (tm : Str → Option (Str × α × Str)) (hs : TMSound tm) :
    ∀ n s, s.length ≤ n → flattenPieces (scanGo tm n s) = s := by
  intro n
  induction n with
  | zero =>
    intro s hlen
    have : s = [] := List.eq_nil_of_length_eq_zero (Nat.le_zero.mp hlen)
    subst this
    simp [scanGo, flattenPieces]
  | succ n ih =>
    intro s hlen
    cases s with
    | nil => simp [scanGo, flattenPieces]
    | cons c cs =>
      cases hm : tm (c :: cs) with
      | some mvr =>
        obtain ⟨m, v, r⟩ := mvr
        obtain ⟨hsplit, hne⟩ := hs _ _ _ _ hm
        have hlr : r.length ≤ n := by
          have hle : (c :: cs).length = m.length + r.length := by
            rw [hsplit, List.length_append]
          have hml : 1 ≤ m.length := by
            cases m with
            | nil => exact absurd rfl hne
            | cons _ _ => simp
          simp only [List.length_cons] at hlen hle
          omega
        simp only [scanGo, hm, flattenPieces, List.map_cons, List.flatten_cons, pieceText]
        have := ih r hlr
        simp only [flattenPieces] at this
        rw [this, ← hsplit]
      | none =>
        simp only [scanGo, hm, flattenPieces, List.map_cons, List.flatten_cons, pieceText]
        have hl : cs.length ≤ n := by
          simp only [List.length_cons] at hlen; omega
        have := ih cs hl
        simp only [flattenPieces] at this
        rw [this]
        simp

theorem scanWith_flatten {α : Type} (tm : Str → Option (Str × α × Str)) (hs : TMSound tm)
    (s : Str) : flattenPieces (scanWith tm s) = s :=
  scanGo_flatten tm hs s.length s (Nat.le_refl _)

/-! ### Transcript parser (`parse_chat_messages`) -/

structure Message where
  role : String
  content : Str
deriving DecidableEq

def userMarkerLine : Str := strL "USER PROMPT:"

def grokMarkerLine : Str := strL "GROK RESPONSE:"

/-- Line scan of `parse_chat_messages`: a line equal to one of the two
markers closes the accumulating section (emitting it when its trimmed
content is non-empty, with the role of the section being closed) and
opens a new section with the role implied by the marker; every other
line is appended to the buffer with its newline restored (`writeln!`);
at end of input the final non-empty section is flushed.  A file with no
markers yields one implicit `user` message. -/
def parseGo : List Str → Option String → Str → List Message
  | [], role, acc =>
    if trimStr acc = [] then [] else [⟨role.getD "user", trimStr acc⟩]
  | l :: ls, role, acc =>
    if l = userMarkerLine ∨ l = grokMarkerLine then
      if trimStr acc = [] then
        parseGo ls (some (if l = userMarkerLine then "user" else "assistant")) []
      else
        ⟨role.getD "user", trimStr acc⟩ ::
          parseGo ls (some (if l = userMarkerLine then "user" else "assistant")) []
    else parseGo ls role (acc ++ l ++ ['\n'])

def parse_chat_messages (content : Str) : List Message :=
  parseGo (rustLines content) none []

/-! ### Override-directive passes (`@t` / `@p`) -/

/-- Remove every matched span (the Rust code collects the match ranges of
`captures_iter` and deletes them in reverse order, which leaves exactly
the unmatched characters in order). -/
def stripT (s : Str) : Str := litsOf (scanWith tryT s)

/-- Forward fold recording the last successfully parsed value, exactly as
the Rust loop updates `last_level` and `last_temp` only on `Ok`. -/
def lastOkFold {α : Type} (l : List (Option α)) : Option α :=
  l.foldl (fun acc o => match o with
    | some v => some v
    | none => acc) none

def lastTVal (s : Str) : Option Nat := lastOkFold (valsOf (scanWith tryT s))

def stripP (s : Str) : Str := litsOf (scanWith tryP s)

def lastPVal (s : Str) : Option ℚ := lastOkFold (valsOf (scanWith tryP s))

/-- One directive pass over the message list: strip the matches of `tm`
from every user message, and track the persistent value, which each user
message containing a successfully parsed directive overwrites (so the
last occurrence across all user messages wins). -/
def processDir {α : Type} (tm : Str → Option (Str × Option α × Str)) :
    List Message → List Message × Option α
  | [] => ([], none)
  | m :: ms =>
    let m' : Message :=
      if m.role = "user" then ⟨m.role, litsOf (scanWith tm m.content)⟩ else m
    let v : Option α :=
      if m.role = "user" then lastOkFold (valsOf (scanWith tm m.content)) else none
    let rest := processDir tm ms
    (m' :: rest.1,
     match rest.2 with
     | some w => some w
     | none => v)

/-- First pass of `process_chat_file`: the `@t` / `persistent_level` pass. -/
def processT : List Message → List Message × Option Nat := processDir tryT

/-- Second pass: the `@p` / `persistent_temperature` pass. -/
def processP : List Message → List Message × Option ℚ := processDir tryP

def MAX_LEVEL : Nat := 5

/-- Rust `512u32 << level` (32-bit shift). -/
def parse_level (level : Nat) : Nat := (512 <<< level) % 2 ^ 32

/-- Rust `get_level_from_str`: trim, strip a leading `L`, parse a `u32`,
and require the level to be at most `MAX_LEVEL`. -/
def get_level_from_str (s : Str) : Except Str Nat :=
  match trimStr s with
  | 'L' :: lstr =>
    match parseU32 lstr with
    | some level =>
      if level ≤ MAX_LEVEL then .ok level else .error (strL "Level too high")
    | none => .error (strL "Invalid level")
  | _ => .error (strL "Invalid format")

/-- Level selection in `process_chat_file`: the persistent `@t` level (if
any), capped at `MAX_LEVEL` with a warning; otherwise the default. -/
def resolveLevel (defaultLevel : Nat) (p : Option Nat) : Nat × Bool :=
  match p with
  | none => (defaultLevel, false)
  | some lvl => if lvl > MAX_LEVEL then (MAX_LEVEL, true) else (lvl, false)

/-- Temperature selection: the persistent `@p` value (if any) is used
as-is, with a warning when it lies outside the typical 0.0–2.0 range;
otherwise the default. -/
def resolveTemp (defaultTemp : ℚ) (p : Option ℚ) : ℚ × Bool :=
  match p with
  | none => (defaultTemp, false)
  | some t => (t, decide (t < 0 ∨ 2 < t))

/-! ### Placeholder expansion (`expand_placeholders`)

The filesystem-dependent `expand_file_path` / `expand_dir_tree` are
oracle functions `Str → Except Str Str`. -/

def renderPH (ef ed : Str → Except Str Str) : PH → Except Str Str
  | .f p => ef p
  | .d p => ed p

/-- The scan loop of `expand_placeholders`: for each leftmost match, the
text since the previous match is copied verbatim, then either the
expansion or (on error, with a warning) the literal placeholder text is
pushed; the trailing text is copied verbatim.  The second component is
the list of placeholders whose expansion failed (one warning each). -/
def expandGo (ef ed : Str → Except Str Str) : Nat → Str → Str × List Str
  | 0, s => (s, [])
  | _ + 1, [] => ([], [])
  | n + 1, c :: cs =>
    match tryFD (c :: cs) with
    | some (m, ph, r) =>
      let out := expandGo ef ed n r
      match renderPH ef ed ph with
      | .ok e => (e ++ out.1, out.2)
      | .error _ => (m ++ out.1, m :: out.2)
    | none =>
      let out := expandGo ef ed n cs
      (c :: out.1, out.2)

def expand_placeholders (ef ed : Str → Except Str Str) (s : Str) : Str × List Str :=
  expandGo ef ed s.length s

/-- Specification-side rendering of one decomposition piece. -/
def renderPieceFD (ef ed : Str → Except Str Str) : Piece PH → Str
  | .lit c => [c]
  | .tok m ph =>
    match renderPH ef ed ph with
    | .ok e => e
    | .error _ => m

def renderPiecesFD (ef ed : Str → Except Str Str) (ps : List (Piece PH)) : Str :=
  (ps.map (renderPieceFD ef ed)).flatten

/-- The matches whose expansion fails, in match order. -/
def failedToks (ef ed : Str → Except Str Str) (ps : List (Piece PH)) : List Str :=
  ps.filterMap fun p => match p with
    | .tok m ph =>
      match renderPH ef ed ph with
      | .ok _ => none
      | .error _ => some m
    | .lit _ => none

/-! ### Request orchestration (`process_chat_file`) -/

structure Choice where
  content : Str
  finish_reason : Option Str
deriving DecidableEq

/-- One API transaction outcome, as seen by the `match res` in the inner
loop: a successful, decodable response with its choice list; a response
with success status whose body fails to decode; a non-success status; or
a transport-level error. -/
inductive ApiOutcome where
  | ok (choices : List Choice)
  | decodeErr
  | httpErr
  | reqErr
deriving DecidableEq

inductive ErrKind where
  | noApiKey
  | decodeFailed
  | apiStatus
  | transport
deriving DecidableEq

/-- One append made to the chat file (the file is only ever opened in
append mode). -/
inductive Append where
  | artifact (txt : Str)
  | reply (txt : Str)
deriving DecidableEq

def Append.txt : Append → Str
  | .artifact t => t
  | .reply t => t

def Append.isArtifact : Append → Bool
  | .artifact _ => true
  | .reply _ => false

structure ReqRec where
  messages : List Message
  level : Nat
  max_tokens : Nat
  temperature : ℚ
deriving DecidableEq

structure Cfg where
  default_level : Nat
  default_temperature : ℚ
  auto_request_files : Bool
  auto_increase_max_tokens : Bool
  has_api_key : Bool
deriving DecidableEq

/-- Filesystem oracles: `canonInCwd p` models
`cwd.join(p).canonicalize()` succeeding with a result inside the current
working directory; the other two model `expand_file_path` and
`expand_dir_tree`. -/
structure Fs where
  canonInCwd : Str → Bool
  expandFile : Str → Except Str Str
  expandDir : Str → Except Str Str

def requestMarker : Str := strL "GROK REQUESTS FILES:"

/-- The file-request grammar check of the inner loop: the trimmed reply
must start with the marker, the remainder (re-trimmed) must be non-empty,
and the whole trimmed reply must be exactly `marker ++ " " ++ remainder`;
the paths are the comma-split, trimmed, non-empty pieces. -/
def fileRequestPaths (content : Str) : Option (List Str) :=
  let trimmed := trimStr content
  if requestMarker.isPrefixOf trimmed then
    if trimStr (trimmed.drop requestMarker.length) ≠ [] ∧
        trimmed = requestMarker ++ ' ' :: trimStr (trimmed.drop requestMarker.length) then
      some (((splitOnChar ',' (trimStr (trimmed.drop requestMarker.length))).map trimStr).filter
        (· ≠ []))
    else none
  else none

/-- Rust `PathBuf::is_absolute` on Unix. -/
def isAbsolutePath : Str → Bool
  | '/' :: _ => true
  | _ => false

/-- The traversal check of the validation loop:
`path.is_absolute() || p.starts_with("..") || p.contains("..")`. -/
def traversalBad (p : Str) : Bool :=
  isAbsolutePath p || (strL "..").isPrefixOf p || containsStr (strL "..") p

/-- The validation loop over requested paths, with its early `break` on
the first invalid path: `none` models `all_valid = false`. -/
def validatePaths (canon : Str → Bool) : List Str → Option (List Str)
  | [] => some []
  | p :: ps =>
    if traversalBad p then none
    else if canon p then (validatePaths canon ps).map (p :: ·)
    else none

/-- The bytes appended for a File-Request Artifact:
`writeln!(file, "\n\nGROK REQUESTED FILES:")` then one
`writeln!(file, "@f:{}", vp)` per validated path. -/
def artifactText (validPaths : List Str) : Str :=
  strL "\n\nGROK REQUESTED FILES:\n" ++
    (validPaths.map (fun p => strL "@f:" ++ p ++ ['\n'])).flatten

/-- The bytes appended for a final reply:
`writeln!(file, "\n{}:\n{}\n\n{}:\n", GROK_RESPONSE_MARKER, content, USER_PROMPT_MARKER)`. -/
def replyAppendText (content : Str) : Str :=
  strL "\nGROK RESPONSE:\n" ++ content ++ strL "\n\nUSER PROMPT:\n\n"

/-- The complete file-request gate for one reply: enabled flag, exact
grammar, full validation, non-empty validated list. -/
def fileReqDecision (cfg : Cfg) (canon : Str → Bool) (content : Str) : Option (List Str) :=
  if cfg.auto_request_files then
    match fileRequestPaths content with
    | some paths =>
      match validatePaths canon paths with
      | some vps => if vps = [] then none else some vps
      | none => none
    | none => none
  else none

/-- Rust: `finish_reason.as_ref().map(|r| r == "max_tokens" || r == "length")`. -/
def isTruncated (finish : Option Str) : Bool :=
  finish = some (strL "max_tokens") || finish = some (strL "length")

inductive InnerRes where
  | final
  | fileReq
  | errK (k : ErrKind)
  | panicked
  | outOfResponses
deriving DecidableEq

structure InnerOut where
  file : Str
  appends : List Append
  requests : List ReqRec
  escalations : Nat
  warn : Bool
  res : InnerRes
  restOutcomes : List ApiOutcome
deriving DecidableEq

/-- The inner (truncation-retry) loop of `process_chat_file`, driven by
the oracle list of API outcomes.  The message list is held fixed; only
`current_level` changes between retries.  `warn` records the
"truncated even at max level" warning printed with the final append. -/
def runInner (cfg : Cfg) (canon : Str → Bool) (msgs : List Message) (temp : ℚ) (file : Str) :
    Nat → List ApiOutcome → InnerOut
  | _, [] => ⟨file, [], [], 0, false, .outOfResponses, []⟩
  | level, o :: rest =>
    match o with
    | .decodeErr => ⟨file, [], [⟨msgs, level, parse_level level, temp⟩], 0, false,
                     .errK .decodeFailed, rest⟩
    | .httpErr => ⟨file, [], [⟨msgs, level, parse_level level, temp⟩], 0, false,
                   .errK .apiStatus, rest⟩
    | .reqErr => ⟨file, [], [⟨msgs, level, parse_level level, temp⟩], 0, false,
                  .errK .transport, rest⟩
    | .ok choices =>
      match choices with
      | [] => ⟨file, [], [⟨msgs, level, parse_level level, temp⟩], 0, false, .panicked, rest⟩
      | c :: _ =>
        match fileReqDecision cfg canon c.content with
        | some vps =>
          ⟨file ++ artifactText vps, [.artifact (artifactText vps)],
           [⟨msgs, level, parse_level level, temp⟩], 0, false, .fileReq, rest⟩
        | none =>
          if cfg.auto_increase_max_tokens && isTruncated c.finish_reason && level < MAX_LEVEL then
            let out := runInner cfg canon msgs temp file (level + 1) rest
            ⟨out.file, out.appends, ⟨msgs, level, parse_level level, temp⟩ :: out.requests,
             out.escalations + 1, out.warn, out.res, out.restOutcomes⟩
          else
            ⟨file ++ replyAppendText c.content, [.reply (replyAppendText c.content)],
             [⟨msgs, level, parse_level level, temp⟩], 0,
             isTruncated c.finish_reason, .final, rest⟩

/-- The system instructions prepended when `--auto-request-files` is on. -/
def SYSTEM_INSTRUCTIONS : Str := strL "\nYou are Grok, a helpful AI. If you need the contents of files to better answer the user's query, you can request them by responding with EXACTLY this format and NOTHING ELSE:\nGROK REQUESTS FILES: relative/path1, relative/path2\nPaths must be relative to the current working directory (e.g., src/main.rs, not /absolute/path or ../outside). Do not request files outside the project directory. You can request multiple files, directories, or globs (e.g., src/*.rs). The system will automatically include their contents in the next user message. Request all needed files at once if possible. You may request again if more are needed after seeing the contents.\n"

def systemMessage : Message := ⟨"system", SYSTEM_INSTRUCTIONS⟩

structure PrepOut where
  msgs : List Message
  level : Nat
  temp : ℚ
  levelWarn : Bool
  tempWarn : Bool
deriving DecidableEq

def expandUserContent (fs : Fs) (m : Message) : Message :=
  if m.role = "user" then ⟨m.role, (expand_placeholders fs.expandFile fs.expandDir m.content).1⟩
  else m

/-- One outer-loop iteration's preparation: strip `@t`, resolve level;
strip `@p`, resolve temperature; expand `@f`/`@d` in user messages. -/
def prepareIteration (fs : Fs) (defaultLevel : Nat) (defaultTemp : ℚ)
    (msgs : List Message) : PrepOut :=
  ⟨((processP (processT msgs).1).1).map (expandUserContent fs),
   (resolveLevel defaultLevel (processT msgs).2).1,
   (resolveTemp defaultTemp (processP (processT msgs).1).2).1,
   (resolveLevel defaultLevel (processT msgs).2).2,
   (resolveTemp defaultTemp (processP (processT msgs).1).2).2⟩

inductive TurnResult where
  | done
  | noPrompt
  | err (k : ErrKind)
  | panicked
  | outOfResponses
  | outOfFuel
deriving DecidableEq

structure Trace where
  result : TurnResult
  file : Str
  appends : List Append
  requests : List ReqRec
  escalations : Nat
  warn : Bool
deriving DecidableEq

/-- The outer (file-request negotiation) loop of `process_chat_file`:
each iteration re-reads and re-parses the file, checks that the last
message is a non-empty user prompt, resolves parameters, expands
placeholders, requires the API key, and runs the inner loop; a
file-request iteration appends the artifact and loops, anything else is
terminal.  `fuel` bounds the number of outer iterations. -/
def runOuter (cfg : Cfg) (fs : Fs) : Nat → Str → List ApiOutcome → Trace
  | 0, file, _ => ⟨.outOfFuel, file, [], [], 0, false⟩
  | fuel + 1, file, outs =>
    match (parse_chat_messages file).getLast? with
    | none => ⟨.noPrompt, file, [], [], 0, false⟩
    | some lastM =>
      if lastM.role ≠ "user" ∨ trimStr lastM.content = [] then
        ⟨.noPrompt, file, [], [], 0, false⟩
      else
        if cfg.has_api_key then
          let prep := prepareIteration fs cfg.default_level cfg.default_temperature
            (parse_chat_messages file)
          let inner := runInner cfg fs.canonInCwd
            (if cfg.auto_request_files then systemMessage :: prep.msgs else prep.msgs)
            prep.temp file prep.level outs
          match inner.res with
          | .fileReq =>
            let t := runOuter cfg fs fuel inner.file inner.restOutcomes
            ⟨t.result, t.file, inner.appends ++ t.appends, inner.requests ++ t.requests,
             inner.escalations + t.escalations, inner.warn || t.warn⟩
          | .final => ⟨.done, inner.file, inner.appends, inner.requests,
                       inner.escalations, inner.warn⟩
          | .errK k => ⟨.err k, inner.file, inner.appends, inner.requests,
                        inner.escalations, inner.warn⟩
          | .panicked => ⟨.panicked, inner.file, inner.appends, inner.requests,
                          inner.escalations, inner.warn⟩
          | .outOfResponses => ⟨.outOfResponses, inner.file, inner.appends, inner.requests,
                                inner.escalations, inner.warn⟩
        else ⟨.err .noApiKey, file, [], [], 0, false⟩

/-! ### The expander is order-preserving (machinery for C5) -/

theorem expandGo_eq (ef ed : Str → Except Str Str) :
    ∀ n s, s.length ≤ n →
      expandGo ef ed n s =
        (renderPiecesFD ef ed (scanGo tryFD n s), failedToks ef ed (scanGo tryFD n s)) := by
  intro n
  induction n with
  | zero =>
    intro s hlen
    have hs : s = [] := List.eq_nil_of_length_eq_zero (Nat.le_zero.mp hlen)
    subst hs
    simp [expandGo, scanGo, renderPiecesFD, failedToks]
  | succ n ih =>
    intro s hlen
    cases s with
    | nil => simp [expandGo, scanGo, renderPiecesFD, failedToks]
    | cons c cs =>
      cases hm : tryFD (c :: cs) with
      | some mvr =>
        obtain ⟨m, ph, r⟩ := mvr
        obtain ⟨hsplit, hne⟩ := tryFD_sound _ _ _ _ hm
        have hlr : r.length ≤ n := by
          have hle : (c :: cs).length = m.length + r.length := by
            rw [hsplit, List.length_append]
          have hml : 1 ≤ m.length := by
            cases m with
            | nil => exact absurd rfl hne
            | cons _ _ => simp
          simp only [List.length_cons] at hlen hle
          omega
        have ihr := ih r hlr
        cases hph : renderPH ef ed ph with
        | ok e =>
          simp [expandGo, scanGo, hm, hph, ihr, renderPiecesFD, failedToks, renderPieceFD]
        | error msg =>
          simp [expandGo, scanGo, hm, hph, ihr, renderPiecesFD, failedToks, renderPieceFD]
      | none =>
        have hl : cs.length ≤ n := by simp only [List.length_cons] at hlen; omega
        have ihr := ih cs hl
        simp [expandGo, scanGo, hm, ihr, renderPiecesFD, failedToks, renderPieceFD]

/-- C5: For every user-message content string, the Directive Expander's
output equals the input text with only the matched placeholder spans
(`@f`/`@d`) replaced, in order, with all unmatched spans copied verbatim
(first and second conjuncts: the input is exactly the reassembly of the
scan decomposition, and the output is the piecewise rendering of that
same decomposition, each unmatched character kept and each matched span
replaced); when expansion of one placeholder fails, that placeholder's
literal text is substituted back in place (the rendering of a failed
token is its own matched text) with a warning (third conjunct: the
warning list is exactly the failed placeholders, in order), and the
remaining placeholders of the same message are still expanded — the
expander is total and never aborts the message. -/
theorem claim_c5_expander_order_preserving (ef ed : Str → Except Str Str) (s : Str) :
    flattenPieces (scanWith tryFD s) = s ∧
    (expand_placeholders ef ed s).1 = renderPiecesFD ef ed (scanWith tryFD s) ∧
    (expand_placeholders ef ed s).2 = failedToks ef ed (scanWith tryFD s) := by
  refine ⟨scanWith_flatten tryFD tryFD_sound s, ?_, ?_⟩ <;>
    simp [expand_placeholders, scanWith, expandGo_eq ef ed s.length s (Nat.le_refl _)]

/-! ### Last-occurrence resolution (machinery for C3) -/

/-- Left-biased choice on options. -/
def orO {α : Type} : Option α → Option α → Option α
  | some v, _ => some v
  | none, b => b

theorem getLast?_cons_orO {α : Type} (v : α) (xs : List α) :
    (v :: xs).getLast? = orO xs.getLast? (some v) := by
  cases xs with
  | nil => simp [orO]
  | cons b bs =>
    rw [List.getLast?_cons_cons]
    cases h : (b :: bs).getLast? with
    | none => exact absurd (List.getLast?_eq_none_iff.mp h) (by simp)
    | some w => simp [orO]

theorem getLast?_append_orO {α : Type} (a b : List α) :
    (a ++ b).getLast? = orO b.getLast? a.getLast? := by
  cases b with
  | nil => simp [orO]
  | cons x xs =>
    rw [List.getLast?_append_of_ne_nil _ (by simp)]
    cases h : (x :: xs).getLast? with
    | none => exact absurd (List.getLast?_eq_none_iff.mp h) (by simp)
    | some w => simp [orO]

theorem lastOkFold_go {α : Type} :
    ∀ (l : List (Option α)) (acc : Option α),
      l.foldl (fun a o => match o with
        | some v => some v
        | none => a) acc = orO (l.filterMap id).getLast? acc := by
  intro l
  induction l with
  | nil => intro acc; simp [orO]
  | cons o t ih =>
    intro acc
    cases o with
    | none =>
      simp only [List.foldl_cons]
      rw [ih]
      simp [List.filterMap_cons]
    | some v =>
      simp only [List.foldl_cons]
      rw [ih]
      simp only [List.filterMap_cons, id]
      rw [getLast?_cons_orO]
      cases hx : (t.filterMap id).getLast? <;> simp [orO]

/-- The code's forward fold (update on every `Ok`) selects exactly the
last successfully parsed occurrence. -/
theorem lastOkFold_eq {α : Type} (l : List (Option α)) :
    lastOkFold l = (l.filterMap id).getLast? := by
  unfold lastOkFold
  rw [lastOkFold_go]
  cases hx : (l.filterMap id).getLast? <;> simp [orO]

/-- All directive occurrences found in user messages, in transcript
order (non-user messages are not scanned). -/
def userVals {α : Type} (tm : Str → Option (Str × Option α × Str)) (msgs : List Message) :
    List (Option α) :=
  (msgs.map fun m => if m.role = "user" then valsOf (scanWith tm m.content) else []).flatten

theorem processDir_snd {α : Type} (tm : Str → Option (Str × Option α × Str))
    (msgs : List Message) :
    (processDir tm msgs).2 = ((userVals tm msgs).filterMap id).getLast? := by
  induction msgs with
  | nil => simp [processDir, userVals]
  | cons m ms ih =>
    have hmatch : ∀ (x : Option α) (v : Option α),
        (match x with
         | some w => some w
         | none => v) = orO x v := by
      intro x v; cases x <;> rfl
    simp only [processDir, hmatch, ih]
    simp only [userVals, List.map_cons, List.flatten_cons]
    rw [List.filterMap_append _ _ _, getLast?_append_orO]
    by_cases hu : m.role = "user"
    · simp [if_pos hu, lastOkFold_eq]
    · simp [if_neg hu, orO]

theorem processDir_fst {α : Type} (tm : Str → Option (Str × Option α × Str))
    (msgs : List Message) :
    (processDir tm msgs).1 = msgs.map (fun m =>
      if m.role = "user" then ⟨m.role, litsOf (scanWith tm m.content)⟩ else m) := by
  induction msgs with
  | nil => simp [processDir]
  | cons m ms ih => simp [processDir, ih]

/-- C3: The effective token-budget level and temperature are taken from
the last occurrence of the corresponding override directive (`@t` /
`@p`) across all user messages in transcript order, regardless of which
user message contains it (first group: the persistent values equal the
last successfully parsed occurrence in the concatenation of all user
messages' matches; the `@p` pass runs on the `@t`-stripped messages);
every occurrence is stripped from the content before expansion and
before sending (second group: the passes replace each user content by
its unmatched characters, the matched spans being accounted for by the
scan decomposition, and the prepared messages are the expansion of the
stripped contents while the level and temperature sent are the resolved
ones); a specified level above the maximum is clamped to the maximum
with a warning (third group), while an out-of-typical-range temperature
is accepted as-is with a warning (fourth group). -/
theorem claim_c3_override_resolution (fs : Fs) (msgs : List Message) (dl : Nat) (dt : ℚ) :
    ((processT msgs).2 = ((userVals tryT msgs).filterMap id).getLast? ∧
     (processP (processT msgs).1).2 =
       ((userVals tryP (processT msgs).1).filterMap id).getLast?) ∧
    ((processT msgs).1 = msgs.map (fun m =>
        if m.role = "user" then ⟨m.role, stripT m.content⟩ else m) ∧
     (processP (processT msgs).1).1 = (processT msgs).1.map (fun m =>
        if m.role = "user" then ⟨m.role, stripP m.content⟩ else m) ∧
     (∀ s : Str, flattenPieces (scanWith tryT s) = s) ∧
     (∀ s : Str, flattenPieces (scanWith tryP s) = s) ∧
     (prepareIteration fs dl dt msgs).msgs =
       ((processP (processT msgs).1).1).map (expandUserContent fs) ∧
     (prepareIteration fs dl dt msgs).level = (resolveLevel dl (processT msgs).2).1 ∧
     (prepareIteration fs dl dt msgs).temp =
       (resolveTemp dt (processP (processT msgs).1).2).1) ∧
    ((resolveLevel dl (processT msgs).2).1 =
       ((processT msgs).2.map (fun l => min l MAX_LEVEL)).getD dl ∧
     ((resolveLevel dl (processT msgs).2).2 = true ↔
       ∃ l, (processT msgs).2 = some l ∧ MAX_LEVEL < l)) ∧
    ((resolveTemp dt (processP (processT msgs).1).2).1 =
       ((processP (processT msgs).1).2).getD dt ∧
     ((resolveTemp dt (processP (processT msgs).1).2).2 = true ↔
       ∃ t, (processP (processT msgs).1).2 = some t ∧ (t < 0 ∨ 2 < t))) := by
  refine ⟨⟨processDir_snd tryT msgs, processDir_snd tryP _⟩,
          ⟨processDir_fst tryT msgs, processDir_fst tryP _, ?_, ?_, rfl, rfl, rfl⟩, ?_, ?_⟩
  · exact fun s => scanWith_flatten tryT tryT_sound s
  · exact fun s => scanWith_flatten tryP tryP_sound s
  · cases hp : (processT msgs).2 with
    | none => simp [resolveLevel]
    | some l =>
      constructor
      · show (resolveLevel dl (some l)).1 = min l MAX_LEVEL
        simp only [resolveLevel]
        rcases le_or_lt l MAX_LEVEL with hle | hgt
        · rw [if_neg (by omega)]
          exact (Nat.min_eq_left hle).symm
        · rw [if_pos (by omega)]
          exact (Nat.min_eq_right (by omega)).symm
      · simp only [resolveLevel]
        constructor
        · intro hw
          refine ⟨l, rfl, ?_⟩
          by_contra hc
          rw [if_neg (by omega)] at hw
          simp at hw
        · rintro ⟨l', hl', hgt⟩
          cases hl'
          rw [if_pos (by omega)]
  · cases hp : (processP (processT msgs).1).2 with
    | none => simp [resolveTemp]
    | some t =>
      refine ⟨rfl, ?_⟩
      simp [resolveTemp]

/-! ### Path validation (machinery for C1 and C9) -/

theorem containsStr_iff_occurs (pat : Str) : ∀ s : Str, containsStr pat s = true ↔ pat <:+: s := by
  intro s
  induction s with
  | nil =>
    simp only [containsStr, List.isEmpty_iff]
    constructor
    · intro h; simp [h]
    · intro h; exact List.eq_nil_of_infix_nil h
  | cons c cs ih =>
    simp only [containsStr, Bool.or_eq_true, List.isPrefixOf_iff_prefix, ih]
    rw [List.infix_cons_iff]

theorem splitOnChar_ne_nil (sep : Char) : ∀ s : Str, splitOnChar sep s ≠ [] := by
  intro s
  cases s with
  | nil => simp [splitOnChar]
  | cons c cs =>
    by_cases hc : c = sep
    · simp [splitOnChar, hc]
    · simp only [splitOnChar, if_neg hc]
      cases h : splitOnChar sep cs <;> simp

theorem splitOnChar_head_prefix (sep : Char) :
    ∀ s p ps, splitOnChar sep s = p :: ps → p <+: s := by
  intro s
  induction s with
  | nil =>
    intro p ps h
    simp only [splitOnChar, List.cons.injEq] at h
    obtain ⟨h1, _⟩ := h
    simp [← h1]
  | cons c cs ih =>
    intro p ps h
    by_cases hc : c = sep
    · simp only [splitOnChar, if_pos hc, List.cons.injEq] at h
      obtain ⟨h1, _⟩ := h
      simp [← h1]
    · simp only [splitOnChar, if_neg hc] at h
      cases hq : splitOnChar sep cs with
      | nil => exact absurd hq (splitOnChar_ne_nil sep cs)
      | cons q qs =>
        rw [hq] at h
        simp only [List.cons.injEq] at h
        obtain ⟨h1, _⟩ := h
        obtain ⟨t, ht⟩ := ih q qs hq
        exact ⟨t, by rw [← h1]; simp [← ht]⟩

theorem mem_splitOnChar_occurs (sep : Char) :
    ∀ s l, l ∈ splitOnChar sep s → l <:+: s := by
  intro s
  induction s with
  | nil =>
    intro l hl
    simp only [splitOnChar, List.mem_singleton] at hl
    simp [hl]
  | cons c cs ih =>
    intro l hl
    by_cases hc : c = sep
    · simp only [splitOnChar, if_pos hc, List.mem_cons] at hl
      rcases hl with h1 | h2
      · simp [h1]
      · exact List.infix_cons_iff.mpr (Or.inr (ih l h2))
    · simp only [splitOnChar, if_neg hc] at hl
      cases hq : splitOnChar sep cs with
      | nil => exact absurd hq (splitOnChar_ne_nil sep cs)
      | cons q qs =>
        rw [hq] at hl
        simp only [List.mem_cons] at hl
        rcases hl with h1 | h2
        · subst h1
          have hpre : q <+: cs := splitOnChar_head_prefix sep cs q qs hq
          obtain ⟨t, ht⟩ := hpre
          exact (List.IsPrefix.isInfix ⟨t, by simp [← ht]⟩)
        · exact List.infix_cons_iff.mpr (Or.inr (ih l (by rw [hq]; exact List.mem_cons_of_mem q h2)))

/-- A parent-directory segment: some `/`-separated component of the path
is exactly `..`. -/
def hasParentSegment (p : Str) : Bool := decide (strL ".." ∈ splitOnChar '/' p)

theorem hasParentSegment_containsStr {p : Str} (h : hasParentSegment p = true) :
    containsStr (strL "..") p = true := by
  simp only [hasParentSegment, decide_eq_true_eq] at h
  exact (containsStr_iff_occurs _ p).mpr (mem_splitOnChar_occurs '/' p _ h)

theorem validatePaths_none (canon : Str → Bool) :
    ∀ paths (p : Str), p ∈ paths → (traversalBad p = true ∨ canon p = false) →
      validatePaths canon paths = none := by
  intro paths
  induction paths with
  | nil => intro p hp; simp at hp
  | cons q ps ih =>
    intro p hp hbad
    simp only [List.mem_cons] at hp
    cases htq : traversalBad q with
    | true => simp [validatePaths, htq]
    | false =>
      cases hcq : canon q with
      | false => simp [validatePaths, htq, hcq]
      | true =>
        rcases hp with h1 | h2
        · subst h1
          rcases hbad with hb | hb
          · rw [htq] at hb; exact absurd hb (by simp)
          · rw [hcq] at hb; exact absurd hb (by simp)
        · simp [validatePaths, htq, hcq, ih p h2 hbad]

theorem validatePaths_some (canon : Str → Bool) :
    ∀ paths vps, validatePaths canon paths = some vps →
      vps = paths ∧ ∀ p ∈ paths, traversalBad p = false ∧ canon p = true := by
  intro paths
  induction paths with
  | nil =>
    intro vps h
    simp only [validatePaths, Option.some.injEq] at h
    subst h
    simp
  | cons q ps ih =>
    intro vps h
    cases htq : traversalBad q with
    | true => simp [validatePaths, htq] at h
    | false =>
      cases hcq : canon q with
      | false => simp [validatePaths, htq, hcq] at h
      | true =>
        simp only [validatePaths, htq, hcq, Bool.false_eq_true, if_false, ite_false,
          if_true, ite_true] at h
        cases hvp : validatePaths canon ps with
        | none => rw [hvp] at h; simp at h
        | some vs =>
          rw [hvp] at h
          simp only [Option.map, Option.some.injEq] at h
          obtain ⟨heq, hall⟩ := ih vs hvp
          subst heq
          refine ⟨by simp [← h], ?_⟩
          intro p hp
          rcases List.mem_cons.mp hp with h1 | h2
          · subst h1; exact ⟨htq, hcq⟩
          · exact hall p h2

/-- A non-truncated reply handled by the ordinary final-response branch
(no valid file request). -/
theorem runInner_final_step (cfg : Cfg) (canon : Str → Bool) (msgs : List Message) (temp : ℚ)
    (file : Str) (level : Nat) (content : Str) (rest : List ApiOutcome)
    (hfd : fileReqDecision cfg canon content = none) :
    runInner cfg canon msgs temp file level (.ok [⟨content, none⟩] :: rest) =
      ⟨file ++ replyAppendText content, [.reply (replyAppendText content)],
       [⟨msgs, level, parse_level level, temp⟩], 0, false, .final, rest⟩ := by
  simp [runInner, hfd, isTruncated]

/-- A reply accepted as a file request appends the artifact and exits the
inner loop for a re-parse; nothing is appended as an answer. -/
theorem runInner_filereq_step (cfg : Cfg) (canon : Str → Bool) (msgs : List Message) (temp : ℚ)
    (file : Str) (level : Nat) (content : Str) (fr : Option Str) (rest : List ApiOutcome)
    (vps : List Str) (hfd : fileReqDecision cfg canon content = some vps) :
    runInner cfg canon msgs temp file level (.ok [⟨content, fr⟩] :: rest) =
      ⟨file ++ artifactText vps, [.artifact (artifactText vps)],
       [⟨msgs, level, parse_level level, temp⟩], 0, false, .fileReq, rest⟩ := by
  simp [runInner, hfd]

/-- C1: When auto-request-files is enabled and a reply matches the
file-request grammar, if any listed path fails validation (is absolute,
contains a parent-directory segment, or does not canonicalize into the
current working directory), then no File-Request Artifact is appended
and the reply is handled as an ordinary answer (first conjunct: the
validation loop yields `all_valid = false`, the file-request gate
declines, and the reply goes through the ordinary final-response
branch); and the artifact is appended with the reply withheld only when
the path list is non-empty and every path validates (second conjunct:
when the gate accepts, the artifact append and withheld reply occur, and
necessarily the path list was non-empty with every path absolute-free,
parent-segment-free and canonicalizing inside the working directory). -/
theorem claim_c1_file_request_validation (cfg : Cfg) (canon : Str → Bool) (msgs : List Message)
    (temp : ℚ) (file : Str) (level : Nat) (content : Str) (paths vps : List Str)
    (fr : Option Str) (rest : List ApiOutcome) :
    (fileRequestPaths content = some paths →
     (∃ p ∈ paths, isAbsolutePath p = true ∨ hasParentSegment p = true ∨ canon p = false) →
     validatePaths canon paths = none ∧
     fileReqDecision cfg canon content = none ∧
     runInner cfg canon msgs temp file level (.ok [⟨content, none⟩] :: rest) =
       ⟨file ++ replyAppendText content, [.reply (replyAppendText content)],
        [⟨msgs, level, parse_level level, temp⟩], 0, false, .final, rest⟩) ∧
    (cfg.auto_request_files = true →
     fileRequestPaths content = some paths →
     validatePaths canon paths = some vps →
     vps ≠ [] →
     runInner cfg canon msgs temp file level (.ok [⟨content, fr⟩] :: rest) =
       ⟨file ++ artifactText vps, [.artifact (artifactText vps)],
        [⟨msgs, level, parse_level level, temp⟩], 0, false, .fileReq, rest⟩ ∧
     paths ≠ [] ∧
     ∀ p ∈ paths, isAbsolutePath p = false ∧ hasParentSegment p = false ∧ canon p = true) := by
  constructor
  · intro hpc hex
    obtain ⟨p, hp, hbad⟩ := hex
    have hvn : validatePaths canon paths = none := by
      refine validatePaths_none canon paths p hp ?_
      rcases hbad with h | h | h
      · exact Or.inl (by simp [traversalBad, h])
      · exact Or.inl (by simp [traversalBad, hasParentSegment_containsStr h])
      · exact Or.inr h
    have hfd : fileReqDecision cfg canon content = none := by
      cases hauto : cfg.auto_request_files <;> simp [fileReqDecision, hauto, hpc, hvn]
    exact ⟨hvn, hfd, runInner_final_step cfg canon msgs temp file level content rest hfd⟩
  · intro hauto hpc hv hne
    obtain ⟨heq, hall⟩ := validatePaths_some canon paths vps hv
    have hfd : fileReqDecision cfg canon content = some vps := by
      simp [fileReqDecision, hauto, hpc, hv, hne]
    refine ⟨runInner_filereq_step cfg canon msgs temp file level content fr rest vps hfd,
            by rw [← heq]; exact hne, ?_⟩
    intro p hp
    obtain ⟨htb, hcp⟩ := hall p hp
    simp only [traversalBad, Bool.or_eq_false_iff] at htb
    obtain ⟨⟨habs, _⟩, hcont⟩ := htb
    refine ⟨habs, ?_, hcp⟩
    cases hps : hasParentSegment p with
    | false => rfl
    | true => rw [hasParentSegment_containsStr hps] at hcont; exact absurd hcont (by simp)

/-- C1 witness: a concrete traversal attempt (`../x`) makes the reply an
ordinary answer, and a concrete valid request (`a.rs`) appends the
artifact with the reply withheld. -/
theorem claim_c1_file_request_validation_witness :
    (validatePaths (fun _ => true) [strL "../x"] = none ∧
     fileReqDecision ⟨3, 1, true, false, true⟩ (fun _ => true)
       (strL "GROK REQUESTS FILES: ../x") = none ∧
     runInner ⟨3, 1, true, false, true⟩ (fun _ => true) [⟨"user", strL "m"⟩] 1 (strL "F") 3
         [.ok [⟨strL "GROK REQUESTS FILES: ../x", none⟩]] =
       ⟨strL "F" ++ replyAppendText (strL "GROK REQUESTS FILES: ../x"),
        [.reply (replyAppendText (strL "GROK REQUESTS FILES: ../x"))],
        [⟨[⟨"user", strL "m"⟩], 3, parse_level 3, 1⟩], 0, false, .final, []⟩) ∧
    (runInner ⟨3, 1, true, false, true⟩ (fun _ => true) [⟨"user", strL "m"⟩] 1 (strL "F") 3
         [.ok [⟨strL "GROK REQUESTS FILES: a.rs", none⟩]] =
       ⟨strL "F" ++ artifactText [strL "a.rs"], [.artifact (artifactText [strL "a.rs"])],
        [⟨[⟨"user", strL "m"⟩], 3, parse_level 3, 1⟩], 0, false, .fileReq, []⟩ ∧
     [strL "a.rs"] ≠ ([] : List Str) ∧
     ∀ p ∈ [strL "a.rs"], isAbsolutePath p = false ∧ hasParentSegment p = false ∧
       (fun _ => true : Str → Bool) p = true) := by
  constructor
  · exact (claim_c1_file_request_validation ⟨3, 1, true, false, true⟩ (fun _ => true)
      [⟨"user", strL "m"⟩] 1 (strL "F") 3 (strL "GROK REQUESTS FILES: ../x")
      [strL "../x"] [] none []).1 (by decide)
      ⟨strL "../x", by decide, Or.inr (Or.inl (by decide))⟩
  · exact (claim_c1_file_request_validation ⟨3, 1, true, false, true⟩ (fun _ => true)
      [⟨"user", strL "m"⟩] 1 (strL "F") 3 (strL "GROK REQUESTS FILES: a.rs")
      [strL "a.rs"] [strL "a.rs"] none []).2 rfl (by decide) (by decide) (by decide)

/-- C9: During file-request validation every requested path whose string
contains the two-character substring `..` anywhere — also inside an
ordinary file name such as `notes..md`, not only as a parent-directory
segment — is rejected as a traversal attempt (first conjunct: the
`p.contains("..")` branch of the check fires), which makes the entire
reply be handled as an ordinary answer (second conjunct: the validation
loop fails, the gate declines, and the reply goes through the ordinary
final-response branch with no artifact appended). -/
theorem claim_c9_dotdot_substring_rejection (cfg : Cfg) (canon : Str → Bool)
    (msgs : List Message) (temp : ℚ) (file : Str) (level : Nat) (content p : Str)
    (paths : List Str) (h : containsStr (strL "..") p = true) :
    traversalBad p = true ∧
    (p ∈ paths → fileRequestPaths content = some paths →
     validatePaths canon paths = none ∧
     fileReqDecision cfg canon content = none ∧
     runInner cfg canon msgs temp file level [.ok [⟨content, none⟩]] =
       ⟨file ++ replyAppendText content, [.reply (replyAppendText content)],
        [⟨msgs, level, parse_level level, temp⟩], 0, false, .final, []⟩) := by
  have htb : traversalBad p = true := by simp [traversalBad, h]
  refine ⟨htb, ?_⟩
  intro hp hpc
  have hvn : validatePaths canon paths = none :=
    validatePaths_none canon paths p hp (Or.inl htb)
  have hfd : fileReqDecision cfg canon content = none := by
    cases hauto : cfg.auto_request_files <;> simp [fileReqDecision, hauto, hpc, hvn]
  exact ⟨hvn, hfd, runInner_final_step cfg canon msgs temp file level content [] hfd⟩

/-- C9 witness: `notes..md` contains `..` without any parent-directory
segment and is still rejected, turning the whole reply into an ordinary
answer. -/
theorem claim_c9_dotdot_substring_rejection_witness :
    traversalBad (strL "notes..md") = true ∧
    (validatePaths (fun _ => true) [strL "notes..md"] = none ∧
     fileReqDecision ⟨3, 1, true, false, true⟩ (fun _ => true)
       (strL "GROK REQUESTS FILES: notes..md") = none ∧
     runInner ⟨3, 1, true, false, true⟩ (fun _ => true) [⟨"user", strL "m"⟩] 1 (strL "F") 3
         [.ok [⟨strL "GROK REQUESTS FILES: notes..md", none⟩]] =
       ⟨strL "F" ++ replyAppendText (strL "GROK REQUESTS FILES: notes..md"),
        [.reply (replyAppendText (strL "GROK REQUESTS FILES: notes..md"))],
        [⟨[⟨"user", strL "m"⟩], 3, parse_level 3, 1⟩], 0, false, .final, []⟩) ∧
    hasParentSegment (strL "notes..md") = false := by
  have h := claim_c9_dotdot_substring_rejection ⟨3, 1, true, false, true⟩ (fun _ => true)
    [⟨"user", strL "m"⟩] 1 (strL "F") 3 (strL "GROK REQUESTS FILES: notes..md")
    (strL "notes..md") [strL "notes..md"] (by decide)
  exact ⟨h.1, h.2 (by decide) (by decide), by decide⟩

/-- A truncated reply below the maximum level (with escalation enabled
and no valid file request) bumps the level and re-issues the request
with the same message list, mutating nothing. -/
theorem runInner_escalate_step (cfg : Cfg) (canon : Str → Bool) (msgs : List Message)
    (temp : ℚ) (file : Str) (level : Nat) (content : Str) (fr : Option Str)
    (rest : List ApiOutcome)
    (hfd : fileReqDecision cfg canon content = none)
    (htr : isTruncated fr = true)
    (hinc : cfg.auto_increase_max_tokens = true)
    (hlt : level < MAX_LEVEL) :
    runInner cfg canon msgs temp file level (.ok [⟨content, fr⟩] :: rest) =
      { runInner cfg canon msgs temp file (level + 1) rest with
        requests := ⟨msgs, level, parse_level level, temp⟩ ::
          (runInner cfg canon msgs temp file (level + 1) rest).requests,
        escalations := (runInner cfg canon msgs temp file (level + 1) rest).escalations + 1 } := by
  simp [runInner, hfd, htr, hinc, decide_eq_true hlt]

/-- C2: With auto-escalation enabled, starting at token-budget level `L`
with maximum level `L + 3` (the code's fixed `MAX_LEVEL`), a
finish-reason sequence [truncated, truncated, normal] causes exactly two
level increments, each step doubling `max_tokens` (the two doubling
conjuncts); no transcript mutation occurs during the retries and the
same in-memory message list is re-sent (the trace shows a single append
— the final reply — and three requests all carrying the same message
list at levels `L`, `L+1`, `L+2`); the third response is the one finally
appended; and since the sequence reaches a normal finish before the
maximum level, no truncation warning is emitted (`warn = false`; the
warning accompanies a final append only when the reply is still
truncated, which at that point can only happen at the maximum level). -/
theorem claim_c2_escalation_sequence (cfg : Cfg) (canon : Str → Bool) (msgs : List Message)
    (temp : ℚ) (file : Str) (L : Nat) (c1 c2 c3 : Str) (f1 f2 : Str)
    (rest : List ApiOutcome)
    (hinc : cfg.auto_increase_max_tokens = true)
    (hmax : L + 3 = MAX_LEVEL)
    (hfd1 : fileReqDecision cfg canon c1 = none)
    (hfd2 : fileReqDecision cfg canon c2 = none)
    (hfd3 : fileReqDecision cfg canon c3 = none)
    (hf1 : isTruncated (some f1) = true) (hf2 : isTruncated (some f2) = true) :
    runInner cfg canon msgs temp file L
        (.ok [⟨c1, some f1⟩] :: .ok [⟨c2, some f2⟩] :: .ok [⟨c3, none⟩] :: rest) =
      ⟨file ++ replyAppendText c3, [.reply (replyAppendText c3)],
       [⟨msgs, L, parse_level L, temp⟩, ⟨msgs, L + 1, parse_level (L + 1), temp⟩,
        ⟨msgs, L + 2, parse_level (L + 2), temp⟩],
       2, false, .final, rest⟩ ∧
    parse_level (L + 1) = 2 * parse_level L ∧
    parse_level (L + 2) = 2 * parse_level (L + 1) := by
  have hL : L = 2 := by simp [MAX_LEVEL] at hmax; omega
  subst hL
  refine ⟨?_, by decide, by decide⟩
  rw [runInner_escalate_step cfg canon msgs temp file 2 c1 (some f1) _ hfd1 hf1 hinc
      (by decide),
    runInner_escalate_step cfg canon msgs temp file 3 c2 (some f2) _ hfd2 hf2 hinc
      (by decide),
    runInner_final_step cfg canon msgs temp file 4 c3 rest hfd3]

/-- C2 witness: the concrete escalation L2 → L3 → L4 with a normal third
reply. -/
theorem claim_c2_escalation_sequence_witness :
    runInner ⟨3, 1, false, true, true⟩ (fun _ => false) [⟨"user", strL "m"⟩] 1 (strL "F") 2
        [.ok [⟨strL "a", some (strL "length")⟩], .ok [⟨strL "b", some (strL "max_tokens")⟩],
         .ok [⟨strL "c", none⟩]] =
      ⟨strL "F" ++ replyAppendText (strL "c"), [.reply (replyAppendText (strL "c"))],
       [⟨[⟨"user", strL "m"⟩], 2, parse_level 2, 1⟩, ⟨[⟨"user", strL "m"⟩], 3, parse_level 3, 1⟩,
        ⟨[⟨"user", strL "m"⟩], 4, parse_level 4, 1⟩],
       2, false, .final, []⟩ ∧
    parse_level 3 = 2 * parse_level 2 ∧ parse_level 4 = 2 * parse_level 3 :=
  claim_c2_escalation_sequence ⟨3, 1, false, true, true⟩ (fun _ => false) [⟨"user", strL "m"⟩]
    1 (strL "F") 2 (strL "a") (strL "b") (strL "c") (strL "length") (strL "max_tokens") []
    rfl (by decide) rfl rfl rfl (by decide) (by decide)

/-- C6: For every successfully-decoded API response whose list of
completion choices is empty, the Rust code indexes `choices[0]`
unguardedly, which panics (out-of-bounds) instead of taking a guarded
error branch as the specification prescribes: the run reaches the
`panicked` outcome, with no transcript mutation and no error result. -/
theorem claim_c6_empty_choices_panics (cfg : Cfg) (canon : Str → Bool) (msgs : List Message)
    (temp : ℚ) (file : Str) (level : Nat) (rest : List ApiOutcome) :
    runInner cfg canon msgs temp file level (.ok [] :: rest) =
      ⟨file, [], [⟨msgs, level, parse_level level, temp⟩], 0, false, .panicked, rest⟩ := by
  simp [runInner]

/-! ### Append-only trace invariants (machinery for C4 and C10) -/

theorem runInner_file_appends (cfg : Cfg) (canon : Str → Bool) (msgs : List Message) (temp : ℚ) :
    ∀ (outs : List ApiOutcome) (file : Str) (level : Nat),
      (runInner cfg canon msgs temp file level outs).file =
        file ++ (((runInner cfg canon msgs temp file level outs).appends).map Append.txt).flatten := by
  intro outs
  induction outs with
  | nil => intro file level; simp [runInner]
  | cons o rest ih =>
    intro file level
    cases o with
    | decodeErr => simp [runInner]
    | httpErr => simp [runInner]
    | reqErr => simp [runInner]
    | ok choices =>
      cases choices with
      | nil => simp [runInner]
      | cons c cs =>
        cases hfd : fileReqDecision cfg canon c.content with
        | some vps => simp [runInner, hfd, Append.txt]
        | none =>
          cases hesc : cfg.auto_increase_max_tokens && isTruncated c.finish_reason &&
              decide (level < MAX_LEVEL) with
          | true => simp [runInner, hfd, hesc, ih]
          | false => simp [runInner, hfd, hesc, Append.txt]

theorem runInner_err_no_append (cfg : Cfg) (canon : Str → Bool) (msgs : List Message) (temp : ℚ) :
    ∀ (outs : List ApiOutcome) (file : Str) (level : Nat) (k : ErrKind),
      (runInner cfg canon msgs temp file level outs).res = .errK k →
      (runInner cfg canon msgs temp file level outs).appends = [] := by
  intro outs
  induction outs with
  | nil => intro file level k h; simp [runInner]
  | cons o rest ih =>
    intro file level k h
    cases o with
    | decodeErr => simp [runInner]
    | httpErr => simp [runInner]
    | reqErr => simp [runInner]
    | ok choices =>
      cases choices with
      | nil => simp [runInner] at h
      | cons c cs =>
        cases hfd : fileReqDecision cfg canon c.content with
        | some vps => simp [runInner, hfd] at h
        | none =>
          cases hesc : cfg.auto_increase_max_tokens && isTruncated c.finish_reason &&
              decide (level < MAX_LEVEL) with
          | true =>
            simp only [runInner, hfd, hesc, if_true, ite_true] at h ⊢
            exact ih file (level + 1) k h
          | false => simp [runInner, hfd, hesc] at h

theorem runInner_fileReq_artifact (cfg : Cfg) (canon : Str → Bool) (msgs : List Message)
    (temp : ℚ) :
    ∀ (outs : List ApiOutcome) (file : Str) (level : Nat),
      (runInner cfg canon msgs temp file level outs).res = .fileReq →
      ∃ t, (runInner cfg canon msgs temp file level outs).appends = [.artifact t] := by
  intro outs
  induction outs with
  | nil => intro file level h; simp [runInner] at h
  | cons o rest ih =>
    intro file level h
    cases o with
    | decodeErr => simp [runInner] at h
    | httpErr => simp [runInner] at h
    | reqErr => simp [runInner] at h
    | ok choices =>
      cases choices with
      | nil => simp [runInner] at h
      | cons c cs =>
        cases hfd : fileReqDecision cfg canon c.content with
        | some vps => exact ⟨artifactText vps, by simp [runInner, hfd]⟩
        | none =>
          cases hesc : cfg.auto_increase_max_tokens && isTruncated c.finish_reason &&
              decide (level < MAX_LEVEL) with
          | true =>
            simp only [runInner, hfd, hesc, if_true, ite_true] at h ⊢
            exact ih file (level + 1) h
          | false => simp [runInner, hfd, hesc] at h

theorem runOuter_file_appends (cfg : Cfg) (fs : Fs) :
    ∀ (fuel : Nat) (file : Str) (outs : List ApiOutcome),
      (runOuter cfg fs fuel file outs).file =
        file ++ (((runOuter cfg fs fuel file outs).appends).map Append.txt).flatten := by
  intro fuel
  induction fuel with
  | zero => intro file outs; simp [runOuter]
  | succ fuel ih =>
    intro file outs
    simp only [runOuter]
    cases hL : (parse_chat_messages file).getLast? with
    | none => simp
    | some lastM =>
      by_cases helig : lastM.role ≠ "user" ∨ trimStr lastM.content = []
      · simp [helig]
      · simp only [if_neg helig]
        cases hk : cfg.has_api_key with
        | false => simp
        | true =>
          simp only [if_true, ite_true]
          cases hres : (runInner cfg fs.canonInCwd
              (if cfg.auto_request_files then
                systemMessage :: (prepareIteration fs cfg.default_level
                  cfg.default_temperature (parse_chat_messages file)).msgs
               else (prepareIteration fs cfg.default_level
                  cfg.default_temperature (parse_chat_messages file)).msgs)
              (prepareIteration fs cfg.default_level cfg.default_temperature
                (parse_chat_messages file)).temp file
              (prepareIteration fs cfg.default_level cfg.default_temperature
                (parse_chat_messages file)).level outs).res with
          | fileReq =>
            simp only [hres]
            rw [ih]
            rw [runInner_file_appends cfg fs.canonInCwd _ _ outs file _]
            simp [hres, List.map_append, List.flatten_append, List.append_assoc]
          | final =>
            simp only [hres]
            rw [runInner_file_appends cfg fs.canonInCwd _ _ outs file _]
          | errK k =>
            simp only [hres]
            rw [runInner_file_appends cfg fs.canonInCwd _ _ outs file _]
          | panicked =>
            simp only [hres]
            rw [runInner_file_appends cfg fs.canonInCwd _ _ outs file _]
          | outOfResponses =>
            simp only [hres]
            rw [runInner_file_appends cfg fs.canonInCwd _ _ outs file _]

theorem runOuter_err_artifacts (cfg : Cfg) (fs : Fs) :
    ∀ (fuel : Nat) (file : Str) (outs : List ApiOutcome) (k : ErrKind),
      (runOuter cfg fs fuel file outs).result = .err k →
      ∀ a ∈ (runOuter cfg fs fuel file outs).appends, a.isArtifact = true := by
  intro fuel
  induction fuel with
  | zero => intro file outs k h; simp [runOuter] at h
  | succ fuel ih =>
    intro file outs k h
    simp only [runOuter] at h ⊢
    cases hL : (parse_chat_messages file).getLast? with
    | none => simp [hL] at h
    | some lastM =>
      simp only [hL] at h ⊢
      by_cases helig : lastM.role ≠ "user" ∨ trimStr lastM.content = []
      · simp [helig] at h
      · simp only [if_neg helig] at h ⊢
        cases hk : cfg.has_api_key with
        | false => simp [hk]
        | true =>
          simp only [hk, if_true, ite_true] at h ⊢
          cases hres : (runInner cfg fs.canonInCwd
              (if cfg.auto_request_files then
                systemMessage :: (prepareIteration fs cfg.default_level
                  cfg.default_temperature (parse_chat_messages file)).msgs
               else (prepareIteration fs cfg.default_level
                  cfg.default_temperature (parse_chat_messages file)).msgs)
              (prepareIteration fs cfg.default_level cfg.default_temperature
                (parse_chat_messages file)).temp file
              (prepareIteration fs cfg.default_level cfg.default_temperature
                (parse_chat_messages file)).level outs).res with
          | fileReq =>
            simp only [hres] at h ⊢
            intro a ha
            rcases List.mem_append.mp ha with h1 | h2
            · obtain ⟨t, ht⟩ := runInner_fileReq_artifact cfg fs.canonInCwd _ _ outs file _ hres
              rw [ht] at h1
              simp only [List.mem_singleton] at h1
              simp [h1, Append.isArtifact]
            · exact ih _ _ k h a h2
          | final => simp only [hres] at h; simp at h
          | errK k2 =>
            simp only [hres] at h ⊢
            have := runInner_err_no_append cfg fs.canonInCwd _ _ outs file _ k2 hres
            rw [this]
            intro a ha
            simp at ha
          | panicked => simp only [hres] at h; simp at h
          | outOfResponses => simp only [hres] at h; simp at h

/-- C4 (amended): On a transport or protocol failure the turn terminates
with an error and nothing is ever appended as an answer for that turn:
every append made during the turn is a File-Request Artifact from an
earlier successful sub-exchange, the final file is the initial file plus
exactly those appends, and in particular when no artifact was appended
the file is byte-for-byte as the user left it. -/
theorem claim_c4_failure_appends_only_artifacts (cfg : Cfg) (fs : Fs) (fuel : Nat)
    (file : Str) (outs : List ApiOutcome) (k : ErrKind)
    (h : (runOuter cfg fs fuel file outs).result = .err k) :
    (∀ a ∈ (runOuter cfg fs fuel file outs).appends, a.isArtifact = true) ∧
    (runOuter cfg fs fuel file outs).file =
      file ++ (((runOuter cfg fs fuel file outs).appends).map Append.txt).flatten ∧
    ((runOuter cfg fs fuel file outs).appends = [] →
      (runOuter cfg fs fuel file outs).file = file) := by
  refine ⟨runOuter_err_artifacts cfg fs fuel file outs k h,
          runOuter_file_appends cfg fs fuel file outs, ?_⟩
  intro hnil
  rw [runOuter_file_appends cfg fs fuel file outs, hnil]
  simp

/-- C4 counterexample: a turn in which an earlier sub-exchange appended a
File-Request Artifact and a later request then failed at transport level
ends in an error with the transcript file mutated — it is not left
exactly as the user left it, refuting the claim as stated. -/
theorem claim_c4_counterexample :
    (runOuter ⟨3, 1, true, false, true⟩
        ⟨fun _ => true, fun _ => .ok (strL "S"), fun _ => .error []⟩ 2
        (strL "USER PROMPT:\nhi")
        [.ok [⟨strL "GROK REQUESTS FILES: src", none⟩], .reqErr]).result = .err .transport ∧
    (runOuter ⟨3, 1, true, false, true⟩
        ⟨fun _ => true, fun _ => .ok (strL "S"), fun _ => .error []⟩ 2
        (strL "USER PROMPT:\nhi")
        [.ok [⟨strL "GROK REQUESTS FILES: src", none⟩], .reqErr]).file ≠
      strL "USER PROMPT:\nhi" := by
  exact ⟨by decide, by decide⟩

/-- C4 witness: a transport-level failure on the first exchange of a turn
leaves the file exactly as the user left it. -/
theorem claim_c4_failure_witness :
    (runOuter ⟨3, 1, false, false, true⟩ ⟨fun _ => true, fun _ => .ok [], fun _ => .ok []⟩ 1
        (strL "USER PROMPT:\nhi") [.httpErr]).result = .err .apiStatus ∧
    (runOuter ⟨3, 1, false, false, true⟩ ⟨fun _ => true, fun _ => .ok [], fun _ => .ok []⟩ 1
        (strL "USER PROMPT:\nhi") [.httpErr]).file = strL "USER PROMPT:\nhi" := by
  have h := claim_c4_failure_appends_only_artifacts ⟨3, 1, false, false, true⟩
    ⟨fun _ => true, fun _ => .ok [], fun _ => .ok []⟩ 1
    (strL "USER PROMPT:\nhi") [.httpErr] .apiStatus (by decide)
  exact ⟨by decide, h.2.2 (by decide)⟩

/-- C7 counterexample: for the file whose whole content is
`USER PROMPT:\nHello`, the parser does yield exactly one user message
`Hello`, but the bytes appended for a successful non-truncated reply
`Hi there` are not exactly `GROK RESPONSE:\nHi there\n\nUSER PROMPT:\n`:
the `writeln!` format adds a leading newline before the marker and a
final newline after the fresh user marker line. -/
theorem claim_c7_concrete_scenario_counterexample :
    parse_chat_messages (strL "USER PROMPT:\nHello") = [⟨"user", strL "Hello"⟩] ∧
    (runOuter ⟨3, 1, false, false, true⟩ ⟨fun _ => true, fun _ => .ok [], fun _ => .ok []⟩ 1
        (strL "USER PROMPT:\nHello") [.ok [⟨strL "Hi there", none⟩]]).appends =
      [.reply (replyAppendText (strL "Hi there"))] ∧
    replyAppendText (strL "Hi there") ≠ strL "GROK RESPONSE:\nHi there\n\nUSER PROMPT:\n" := by
  exact ⟨by decide, by decide, by decide⟩

/-- C7 (amended): for the file whose whole content is
`USER PROMPT:\nHello`, the parser yields exactly one message with role
`user` and content `Hello`; and given a simulated successful,
non-truncated reply `Hi there`, the bytes appended to the file are
exactly `\nGROK RESPONSE:\nHi there\n\nUSER PROMPT:\n\n` (the claimed
bytes with the leading newline and the trailing newline of the final
`writeln!` restored). -/
theorem claim_c7_concrete_scenario :
    parse_chat_messages (strL "USER PROMPT:\nHello") = [⟨"user", strL "Hello"⟩] ∧
    runOuter ⟨3, 1, false, false, true⟩ ⟨fun _ => true, fun _ => .ok [], fun _ => .ok []⟩ 1
        (strL "USER PROMPT:\nHello") [.ok [⟨strL "Hi there", none⟩]] =
      ⟨.done,
       strL "USER PROMPT:\nHello" ++ strL "\nGROK RESPONSE:\nHi there\n\nUSER PROMPT:\n\n",
       [.reply (strL "\nGROK RESPONSE:\nHi there\n\nUSER PROMPT:\n\n")],
       [⟨[⟨"user", strL "Hello"⟩], 3, 4096, 1⟩], 0, false⟩ ∧
    replyAppendText (strL "Hi there") = strL "\nGROK RESPONSE:\nHi there\n\nUSER PROMPT:\n\n" := by
  exact ⟨by decide, by decide, by decide⟩

/-! ### Level bounds (machinery for C10) -/

theorem get_level_from_str_le (s : Str) (l : Nat) (h : get_level_from_str s = .ok l) :
    l ≤ MAX_LEVEL := by
  unfold get_level_from_str at h
  split at h
  · rename_i lstr _
    cases hp : parseU32 lstr with
    | none => rw [hp] at h; simp at h
    | some level =>
      simp only [hp] at h
      by_cases hle : level ≤ MAX_LEVEL
      · rw [if_pos hle] at h
        cases h
        exact hle
      · rw [if_neg hle] at h
        simp at h
  · simp at h

theorem runInner_requests_bound (cfg : Cfg) (canon : Str → Bool) (msgs : List Message)
    (temp : ℚ) :
    ∀ (outs : List ApiOutcome) (file : Str) (level : Nat), level ≤ MAX_LEVEL →
      ∀ r ∈ (runInner cfg canon msgs temp file level outs).requests,
        r.level ≤ MAX_LEVEL ∧ r.max_tokens = parse_level r.level := by
  intro outs
  induction outs with
  | nil => intro file level hle r hr; simp [runInner] at hr
  | cons o rest ih =>
    intro file level hle r hr
    cases o with
    | decodeErr =>
      simp only [runInner, List.mem_singleton] at hr
      subst hr; exact ⟨hle, rfl⟩
    | httpErr =>
      simp only [runInner, List.mem_singleton] at hr
      subst hr; exact ⟨hle, rfl⟩
    | reqErr =>
      simp only [runInner, List.mem_singleton] at hr
      subst hr; exact ⟨hle, rfl⟩
    | ok choices =>
      cases choices with
      | nil =>
        simp only [runInner, List.mem_singleton] at hr
        subst hr; exact ⟨hle, rfl⟩
      | cons c cs =>
        cases hfd : fileReqDecision cfg canon c.content with
        | some vps =>
          simp only [runInner, hfd, List.mem_singleton] at hr
          subst hr; exact ⟨hle, rfl⟩
        | none =>
          cases hesc : cfg.auto_increase_max_tokens && isTruncated c.finish_reason &&
              decide (level < MAX_LEVEL) with
          | true =>
            simp only [runInner, hfd, hesc, if_true, ite_true, List.mem_cons] at hr
            rcases hr with h1 | h2
            · subst h1; exact ⟨hle, rfl⟩
            · have hlt : level < MAX_LEVEL := by
                simp only [Bool.and_eq_true, decide_eq_true_eq] at hesc
                exact hesc.2
              exact ih file (level + 1) (by omega) r h2
          | false =>
            simp only [runInner, hfd, hesc, Bool.false_eq_true, if_false, ite_false,
              List.mem_singleton] at hr
            subst hr; exact ⟨hle, rfl⟩

theorem prepareIteration_level_le (fs : Fs) (dl : Nat) (dt : ℚ) (msgs : List Message)
    (h : dl ≤ MAX_LEVEL) : (prepareIteration fs dl dt msgs).level ≤ MAX_LEVEL := by
  show (resolveLevel dl (processT msgs).2).1 ≤ MAX_LEVEL
  cases (processT msgs).2 with
  | none => simpa [resolveLevel]
  | some l =>
    simp only [resolveLevel]
    split
    · omega
    · omega

theorem runOuter_requests_bound (cfg : Cfg) (fs : Fs) :
    ∀ (fuel : Nat) (file : Str) (outs : List ApiOutcome), cfg.default_level ≤ MAX_LEVEL →
      ∀ r ∈ (runOuter cfg fs fuel file outs).requests,
        r.level ≤ MAX_LEVEL ∧ r.max_tokens = parse_level r.level := by
  intro fuel
  induction fuel with
  | zero => intro file outs hdl r hr; simp [runOuter] at hr
  | succ fuel ih =>
    intro file outs hdl r hr
    simp only [runOuter] at hr
    cases hL : (parse_chat_messages file).getLast? with
    | none => simp [hL] at hr
    | some lastM =>
      simp only [hL] at hr
      by_cases helig : lastM.role ≠ "user" ∨ trimStr lastM.content = []
      · simp [helig] at hr
      · simp only [if_neg helig] at hr
        cases hk : cfg.has_api_key with
        | false => simp [hk] at hr
        | true =>
          simp only [hk, if_true, ite_true] at hr
          have hprep := prepareIteration_level_le fs cfg.default_level
            cfg.default_temperature (parse_chat_messages file) hdl
          cases hres : (runInner cfg fs.canonInCwd
              (if cfg.auto_request_files then
                systemMessage :: (prepareIteration fs cfg.default_level
                  cfg.default_temperature (parse_chat_messages file)).msgs
               else (prepareIteration fs cfg.default_level
                  cfg.default_temperature (parse_chat_messages file)).msgs)
              (prepareIteration fs cfg.default_level cfg.default_temperature
                (parse_chat_messages file)).temp file
              (prepareIteration fs cfg.default_level cfg.default_temperature
                (parse_chat_messages file)).level outs).res with
          | fileReq =>
            simp only [hres, List.mem_append] at hr
            rcases hr with h1 | h2
            · exact runInner_requests_bound cfg fs.canonInCwd _ _ outs file _ hprep r h1
            · exact ih _ _ hdl r h2
          | final =>
            simp only [hres] at hr
            exact runInner_requests_bound cfg fs.canonInCwd _ _ outs file _ hprep r hr
          | errK k =>
            simp only [hres] at hr
            exact runInner_requests_bound cfg fs.canonInCwd _ _ outs file _ hprep r hr
          | panicked =>
            simp only [hres] at hr
            exact runInner_requests_bound cfg fs.canonInCwd _ _ outs file _ hprep r hr
          | outOfResponses =>
            simp only [hres] at hr
            exact runInner_requests_bound cfg fs.canonInCwd _ _ outs file _ hprep r hr

theorem parse_level_of_le {l : Nat} (h : l ≤ MAX_LEVEL) :
    parse_level l = 512 * 2 ^ l ∧ 512 * 2 ^ l ≤ 16384 ∧ 512 * 2 ^ l < 2 ^ 32 := by
  simp only [MAX_LEVEL] at h
  interval_cases l <;> exact ⟨by decide, by decide, by decide⟩

/-- C10: In every API request issued, the `max_tokens` field equals 512
shifted left by the effective level (`512·2^level`, the 32-bit shift
reduced without overflow), with the effective level always at most
`MAX_LEVEL = 5`: a command-line level above L5 is rejected at startup
(first conjunct: `get_level_from_str` only returns levels `≤ 5`), and an
in-prompt `@t` level above 5 is clamped to 5 before use (the resolved
level entering the loops is bounded), so `max_tokens` never exceeds
16384 and `512 << level` stays below `2^32`. -/
theorem claim_c10_max_tokens_bound :
    (∀ (s : Str) (l : Nat), get_level_from_str s = .ok l → l ≤ MAX_LEVEL) ∧
    (∀ (cfg : Cfg) (fs : Fs) (fuel : Nat) (file : Str) (outs : List ApiOutcome),
      cfg.default_level ≤ MAX_LEVEL →
      ∀ r ∈ (runOuter cfg fs fuel file outs).requests,
        r.level ≤ MAX_LEVEL ∧ r.max_tokens = 512 * 2 ^ r.level ∧
        r.max_tokens ≤ 16384 ∧ 512 * 2 ^ r.level < 2 ^ 32) := by
  refine ⟨get_level_from_str_le, ?_⟩
  intro cfg fs fuel file outs hdl r hr
  obtain ⟨hle, hmt⟩ := runOuter_requests_bound cfg fs fuel file outs hdl r hr
  obtain ⟨hpl, hb1, hb2⟩ := parse_level_of_le hle
  exact ⟨hle, by rw [hmt, hpl], by rw [hmt, hpl]; exact hb1, hb2⟩

/-- C10 witness: the startup parse of `L3` and a concrete one-request run
at default level 3 stay within the bounds. -/
theorem claim_c10_max_tokens_bound_witness :
    (3 ≤ MAX_LEVEL) ∧
    (⟨[⟨"user", strL "hi"⟩], 3, 4096, 1⟩ : ReqRec).level ≤ MAX_LEVEL ∧
    (⟨[⟨"user", strL "hi"⟩], 3, 4096, 1⟩ : ReqRec).max_tokens = 512 * 2 ^ 3 ∧
    (⟨[⟨"user", strL "hi"⟩], 3, 4096, 1⟩ : ReqRec).max_tokens ≤ 16384 ∧
    512 * 2 ^ 3 < 2 ^ 32 := by
  have h1 := claim_c10_max_tokens_bound.1 (strL "L3") 3 (by rfl)
  have h2 := claim_c10_max_tokens_bound.2 ⟨3, 1, false, false, true⟩
    ⟨fun _ => true, fun _ => .ok [], fun _ => .ok []⟩ 1 (strL "USER PROMPT:\nhi")
    [.ok [⟨strL "yo", none⟩]] (by decide)
    ⟨[⟨"user", strL "hi"⟩], 3, 4096, 1⟩ (by decide)
  exact ⟨h1, h2.1, h2.2.1, h2.2.2.1, h2.2.2.2⟩

/-! ### Round-trip through the mutator format (machinery for C8) -/

/-- The marker line written for a message of the given role. -/
def markerOf (role : String) : Str :=
  if role = "user" then userMarkerLine else grokMarkerLine

/-- The line decomposition of one rendered message. -/
def linesOf (m : Message) : List Str := markerOf m.role :: splitNl m.content

/-- The Transcript Mutator's append format for one message: the role
marker line, then the message content, then a newline — the layout the
`writeln!` in `process_chat_file` produces for each appended reply and
fresh prompt marker. -/
def renderMessage (m : Message) : Str :=
  markerOf m.role ++ '\n' :: (m.content ++ ['\n'])

def renderTranscript (msgs : List Message) : Str := (msgs.map renderMessage).flatten

/-- Join lines, terminating each with a newline. -/
def joinTerm (ls : List Str) : Str := (ls.map (· ++ ['\n'])).flatten

theorem dropWhile_dropWhile (p : Char → Bool) :
    ∀ l : Str, (l.dropWhile p).dropWhile p = l.dropWhile p := by
  intro l
  induction l with
  | nil => rfl
  | cons c cs ih =>
    by_cases h : p c = true
    · rw [List.dropWhile_cons_of_pos h, ih]
    · rw [List.dropWhile_cons_of_neg h, List.dropWhile_cons_of_neg h]

theorem head?_dropWhile_false (p : Char → Bool) :
    ∀ (l : Str) (c : Char), (l.dropWhile p).head? = some c → p c = false := by
  intro l
  induction l with
  | nil => intro c h; simp at h
  | cons d ds ih =>
    intro c h
    by_cases hd : p d = true
    · rw [List.dropWhile_cons_of_pos hd] at h
      exact ih c h
    · rw [List.dropWhile_cons_of_neg hd] at h
      simp only [List.head?_cons, Option.some.injEq] at h
      subst h
      exact Bool.eq_false_iff.mpr hd

theorem trimRight_append_ws {c : Char} (hc : wsChar c = true) (s : Str) :
    trimRightStr (s ++ [c]) = trimRightStr s := by
  unfold trimRightStr
  rw [List.reverse_append]
  simp [List.dropWhile_cons_of_pos hc]

theorem trimStr_append_ws {c : Char} (hc : wsChar c = true) (s : Str) :
    trimStr (s ++ [c]) = trimStr s := by
  unfold trimStr
  rw [trimRight_append_ws hc]

theorem getLast?_of_suffix {l u : Str} (h : l <:+ u) (hne : l ≠ []) :
    u.getLast? = l.getLast? := by
  obtain ⟨t, rfl⟩ := h
  exact List.getLast?_append_of_ne_nil _ hne

theorem getLast?_trimRight_false (t : Str) (c : Char)
    (h : (trimRightStr t).getLast? = some c) : wsChar c = false := by
  unfold trimRightStr at h
  rw [← List.head?_reverse, List.reverse_reverse] at h
  exact head?_dropWhile_false wsChar t.reverse c h

theorem getLast?_trimStr_false (s : Str) (c : Char)
    (h : (trimStr s).getLast? = some c) : wsChar c = false := by
  unfold trimStr at h
  have hsuf : (trimRightStr s).dropWhile wsChar <:+ trimRightStr s :=
    List.dropWhile_suffix wsChar
  have hne : (trimRightStr s).dropWhile wsChar ≠ [] := by
    intro hnil
    rw [hnil] at h
    simp at h
  rw [← getLast?_of_suffix hsuf hne] at h
  exact getLast?_trimRight_false s c h

theorem trimStr_idem (s : Str) : trimStr (trimStr s) = trimStr s := by
  have hB : trimRightStr (trimStr s) = trimStr s := by
    unfold trimRightStr
    cases hrev : (trimStr s).reverse with
    | nil =>
      have hnil : trimStr s = [] := by
        have := congrArg List.reverse hrev
        simpa using this
      rw [hnil]
      rfl
    | cons c cs =>
      have hc : wsChar c = false := by
        refine getLast?_trimStr_false s c ?_
        rw [← List.head?_reverse, hrev]
        rfl
      rw [List.dropWhile_cons_of_neg (by simp [hc]), ← hrev, List.reverse_reverse]
  show (trimRightStr (trimStr s)).dropWhile wsChar = trimStr s
  rw [hB]
  conv_lhs => rw [show trimStr s = (trimRightStr s).dropWhile wsChar from rfl]
  rw [dropWhile_dropWhile]
  rfl

theorem joinTerm_splitNl (s : Str) : joinTerm (splitNl s) = s ++ ['\n'] := by
  induction s with
  | nil => rfl
  | cons c cs ih =>
    by_cases hc : c = '\n'
    · subst hc
      show joinTerm ([] :: splitNl cs) = '\n' :: (cs ++ ['\n'])
      simp only [joinTerm, List.map_cons, List.flatten_cons] at ih ⊢
      rw [ih]
      rfl
    · show joinTerm (splitOnChar '\n' (c :: cs)) = (c :: cs) ++ ['\n']
      simp only [splitOnChar, if_neg hc]
      cases hq : splitOnChar '\n' cs with
      | nil => exact absurd hq (splitOnChar_ne_nil '\n' cs)
      | cons q qs =>
        show joinTerm ((c :: q) :: qs) = (c :: cs) ++ ['\n']
        have ih2 : joinTerm (q :: qs) = cs ++ ['\n'] := by
          rw [← hq]
          exact ih
        simp only [joinTerm, List.map_cons, List.flatten_cons] at ih2 ⊢
        simp only [List.cons_append]
        rw [← ih2]

theorem splitNl_no_nl : ∀ (s : Str) (l : Str), l ∈ splitNl s → '\n' ∉ l := by
  intro s
  induction s with
  | nil =>
    intro l hl
    simp only [splitNl, splitOnChar, List.mem_singleton] at hl
    simp [hl]
  | cons c cs ih =>
    intro l hl
    by_cases hc : c = '\n'
    · subst hc
      have hl2 : l ∈ ([] :: splitNl cs : List Str) := hl
      rcases List.mem_cons.mp hl2 with h1 | h2
      · simp [h1]
      · exact ih l h2
    · simp only [splitNl, splitOnChar, if_neg hc] at hl
      cases hq : splitOnChar '\n' cs with
      | nil => exact absurd hq (splitOnChar_ne_nil '\n' cs)
      | cons q qs =>
        simp only [hq, List.mem_cons] at hl
        rcases hl with h1 | h2
        · subst h1
          intro hmem
          rcases List.mem_cons.mp hmem with h | h
          · exact hc h.symm
          · exact ih q (by rw [show splitNl cs = splitOnChar '\n' cs from rfl, hq]; simp) h
        · exact ih l (by rw [show splitNl cs = splitOnChar '\n' cs from rfl, hq]; simp [h2])

theorem splitNl_noNl_append (l b : Str) (h : '\n' ∉ l) :
    splitNl (l ++ '\n' :: b) = l :: splitNl b := by
  induction l with
  | nil => rfl
  | cons c cs ih =>
    have hc : c ≠ '\n' := fun hcc => h (by simp [hcc])
    have ih2 := ih (fun hm => h (List.mem_cons_of_mem c hm))
    show splitOnChar '\n' (c :: (cs ++ '\n' :: b)) = (c :: cs) :: splitNl b
    simp only [splitOnChar, if_neg hc]
    rw [show splitOnChar '\n' (cs ++ '\n' :: b) = splitNl (cs ++ '\n' :: b) from rfl, ih2]

theorem finishLines_concat_nil : ∀ ls : List Str, finishLines (ls ++ [[]]) = ls.map stripCr := by
  intro ls
  induction ls with
  | nil => rfl
  | cons l rest ih =>
    cases hr : rest ++ [[]] with
    | nil => simp at hr
    | cons x xs =>
      show finishLines (l :: (rest ++ [[]])) = stripCr l :: rest.map stripCr
      rw [hr]
      show stripCr l :: finishLines (x :: xs) = stripCr l :: rest.map stripCr
      rw [← hr, ih]

theorem rustLines_joinTerm (ls : List Str)
    (h : ∀ l ∈ ls, '\n' ∉ l ∧ endsCr l = false) : rustLines (joinTerm ls) = ls := by
  have hsplit : splitNl (joinTerm ls) = ls ++ [[]] := by
    induction ls with
    | nil => rfl
    | cons l rest ih =>
      have hl := h l (List.mem_cons_self l rest)
      have ih2 := ih (fun x hx => h x (List.mem_cons_of_mem l hx))
      show splitNl ((l ++ ['\n']) ++ joinTerm rest) = (l :: rest) ++ [[]]
      rw [List.append_assoc]
      simp only [List.singleton_append]
      rw [splitNl_noNl_append l (joinTerm rest) hl.1, ih2]
      rfl
  have hmap : ∀ (xs : List Str), (∀ l ∈ xs, endsCr l = false) → xs.map stripCr = xs := by
    intro xs
    induction xs with
    | nil => intro _; rfl
    | cons x rest ihx =>
      intro hx
      have h1 : ¬ x.getLast? = some '\r' := by
        simpa [endsCr] using hx x (List.mem_cons_self x rest)
      simp only [List.map_cons, stripCr, if_neg h1]
      rw [ihx (fun y hy => hx y (List.mem_cons_of_mem x hy))]
  unfold rustLines
  rw [hsplit, finishLines_concat_nil, hmap ls (fun l hl => (h l hl).2)]

theorem joinTerm_append (a b : List Str) : joinTerm (a ++ b) = joinTerm a ++ joinTerm b := by
  simp [joinTerm]

theorem renderMessage_joinTerm (m : Message) : renderMessage m = joinTerm (linesOf m) := by
  show renderMessage m = joinTerm (markerOf m.role :: splitNl m.content)
  simp only [joinTerm, List.map_cons, List.flatten_cons]
  rw [show (List.map (fun l => l ++ ['\n']) (splitNl m.content)).flatten =
        joinTerm (splitNl m.content) from rfl,
    joinTerm_splitNl]
  simp [renderMessage]

theorem renderTranscript_joinTerm (msgs : List Message) :
    renderTranscript msgs = joinTerm ((msgs.map linesOf).flatten) := by
  induction msgs with
  | nil => rfl
  | cons m ms ih =>
    show renderMessage m ++ renderTranscript ms = _
    simp only [List.map_cons, List.flatten_cons, joinTerm_append]
    rw [ih, renderMessage_joinTerm]

/-- Messages produced by the parser have a known role, trimmed content
and non-empty content. -/
theorem parseGo_good : ∀ (ls : List Str) (ρ : Option String) (acc : Str),
    (ρ = none ∨ ρ = some "user" ∨ ρ = some "assistant") →
    ∀ m ∈ parseGo ls ρ acc,
      (m.role = "user" ∨ m.role = "assistant") ∧ trimStr m.content = m.content ∧
        m.content ≠ [] := by
  intro ls
  induction ls with
  | nil =>
    intro ρ acc hρ m hm
    simp only [parseGo] at hm
    by_cases ht : trimStr acc = []
    · rw [if_pos ht] at hm
      simp at hm
    · rw [if_neg ht] at hm
      simp only [List.mem_singleton] at hm
      subst hm
      refine ⟨?_, trimStr_idem acc, ht⟩
      rcases hρ with h | h | h <;> simp [h]
  | cons l ls ih =>
    intro ρ acc hρ m hm
    simp only [parseGo] at hm
    by_cases hmark : l = userMarkerLine ∨ l = grokMarkerLine
    · rw [if_pos hmark] at hm
      have hρ2 : (some (if l = userMarkerLine then "user" else "assistant") : Option String)
          = none ∨ (some (if l = userMarkerLine then "user" else "assistant") : Option String)
          = some "user" ∨ (some (if l = userMarkerLine then "user" else "assistant") :
            Option String) = some "assistant" := by
        by_cases hu : l = userMarkerLine <;> simp [hu]
      by_cases ht : trimStr acc = []
      · rw [if_pos ht] at hm
        exact ih _ [] hρ2 m hm
      · rw [if_neg ht] at hm
        rcases List.mem_cons.mp hm with h1 | h2
        · subst h1
          refine ⟨?_, trimStr_idem acc, ht⟩
          rcases hρ with h | h | h <;> simp [h]
        · exact ih _ [] hρ2 m h2
    · rw [if_neg hmark] at hm
      exact ih ρ _ hρ m hm

/-- The well-formedness needed for an exact round trip: a role the
renderer knows, trimmed non-empty content, and no content line that is a
marker line or ends in a carriage return. -/
def GoodMsg (m : Message) : Prop :=
  (m.role = "user" ∨ m.role = "assistant") ∧ trimStr m.content = m.content ∧ m.content ≠ [] ∧
    ∀ l ∈ splitNl m.content, l ≠ userMarkerLine ∧ l ≠ grokMarkerLine ∧ endsCr l = false

theorem markerOf_line (role : String) :
    '\n' ∉ markerOf role ∧ endsCr (markerOf role) = false := by
  by_cases h : role = "user" <;> simp only [markerOf, h, if_true, ite_true, if_false,
    ite_false] <;> exact ⟨by decide, by decide⟩

theorem rustLines_render (msgs : List Message) (h : ∀ m ∈ msgs, GoodMsg m) :
    rustLines (renderTranscript msgs) = (msgs.map linesOf).flatten := by
  rw [renderTranscript_joinTerm]
  apply rustLines_joinTerm
  intro l hl
  simp only [List.mem_flatten, List.mem_map] at hl
  obtain ⟨lines, ⟨m, hm, hlm⟩, hlin⟩ := hl
  subst hlm
  rcases List.mem_cons.mp hlin with h1 | h2
  · subst h1
    exact markerOf_line m.role
  · obtain ⟨-, -, -, hcl⟩ := h m hm
    exact ⟨splitNl_no_nl m.content l h2, (hcl l h2).2.2⟩

theorem parseGo_skip (ls : List Str)
    (h : ∀ l ∈ ls, ¬(l = userMarkerLine ∨ l = grokMarkerLine)) :
    ∀ (rest : List Str) (ρ : Option String) (acc : Str),
      parseGo (ls ++ rest) ρ acc = parseGo rest ρ (acc ++ joinTerm ls) := by
  induction ls with
  | nil => intro rest ρ acc; simp [joinTerm]
  | cons l ls ih =>
    intro rest ρ acc
    have hl := h l (List.mem_cons_self l ls)
    show parseGo (l :: (ls ++ rest)) ρ acc = _
    simp only [parseGo, if_neg hl]
    rw [ih (fun x hx => h x (List.mem_cons_of_mem l hx)) rest ρ (acc ++ l ++ ['\n'])]
    congr 1
    simp only [joinTerm, List.map_cons, List.flatten_cons]
    simp [List.append_assoc]

theorem parseGo_render : ∀ (msgs : List Message) (ρ : Option String) (acc : Str),
    (∀ m ∈ msgs, GoodMsg m) →
    parseGo ((msgs.map linesOf).flatten) ρ acc =
      (if trimStr acc = [] then [] else [⟨ρ.getD "user", trimStr acc⟩]) ++ msgs := by
  intro msgs
  induction msgs with
  | nil =>
    intro ρ acc hg
    simp [parseGo]
  | cons m ms ih =>
    intro ρ acc hg
    obtain ⟨hrole, htrim, hne, hlines⟩ := hg m (List.mem_cons_self m ms)
    have hgms : ∀ x ∈ ms, GoodMsg x := fun x hx => hg x (List.mem_cons_of_mem m hx)
    have hmark : markerOf m.role = userMarkerLine ∨ markerOf m.role = grokMarkerLine := by
      rcases hrole with h | h <;> simp [markerOf, h]
    have hnewRole :
        (if markerOf m.role = userMarkerLine then "user" else "assistant") = m.role := by
      rcases hrole with h | h <;> rw [h] <;> decide
    have hskip := parseGo_skip (splitNl m.content)
      (fun l hl => by
        obtain ⟨h1, h2, -⟩ := hlines l hl
        simp [h1, h2])
    have hacc : trimStr (m.content ++ ['\n']) = m.content := by
      rw [trimStr_append_ws (by decide), htrim]
    show parseGo ((markerOf m.role :: splitNl m.content) ++ (ms.map linesOf).flatten) ρ acc = _
    simp only [List.cons_append, parseGo, if_pos hmark, List.append_eq]
    by_cases ht : trimStr acc = []
    · rw [if_pos ht]
      rw [hskip ((ms.map linesOf).flatten) _ [], ih _ _ hgms]
      simp only [List.nil_append, joinTerm_splitNl, hacc, if_neg hne, hnewRole]
      simp [ht]
    · rw [if_neg ht]
      rw [hskip ((ms.map linesOf).flatten) _ [], ih _ _ hgms]
      simp only [List.nil_append, joinTerm_splitNl, hacc, if_neg hne, hnewRole]
      simp [ht]

/-- C8 (amended): rendering the parser's message list back through the
Transcript Mutator's append format (role marker line followed by the
message content) and re-parsing yields exactly the original message list
— hence the same roles and the same trimmed contents in the same order —
for every transcript whose parsed messages contain no content line that
is itself a marker line or ends in a carriage return (without this
restriction the claim fails: see the counterexample, where trimming
promotes an indented marker line to a real marker). -/
theorem claim_c8_roundtrip (content : Str)
    (h : ∀ m ∈ parse_chat_messages content, ∀ l ∈ splitNl m.content,
      l ≠ userMarkerLine ∧ l ≠ grokMarkerLine ∧ endsCr l = false) :
    parse_chat_messages (renderTranscript (parse_chat_messages content)) =
      parse_chat_messages content := by
  have hgood : ∀ m ∈ parse_chat_messages content, GoodMsg m := by
    intro m hm
    have hbasic := parseGo_good (rustLines content) none [] (Or.inl rfl) m hm
    exact ⟨hbasic.1, hbasic.2.1, hbasic.2.2, h m hm⟩
  show parseGo (rustLines (renderTranscript (parse_chat_messages content))) none [] = _
  rw [rustLines_render _ hgood, parseGo_render _ none [] hgood]
  rfl

/-- C8 counterexample: the transcript
`GROK RESPONSE:\n USER PROMPT:\nxyz` parses to one assistant message
whose content begins (after trimming) with the line `USER PROMPT:`;
re-rendering and re-parsing turns that line into a real marker, so the
round trip loses the assistant role, refuting the claim for arbitrary
transcripts. -/
theorem claim_c8_roundtrip_counterexample :
    (parse_chat_messages (renderTranscript (parse_chat_messages
        (strL "GROK RESPONSE:\n USER PROMPT:\nxyz")))).map Message.role ≠
      (parse_chat_messages (strL "GROK RESPONSE:\n USER PROMPT:\nxyz")).map Message.role := by
  decide

/-- C8 witness: a two-message transcript round-trips exactly. -/
theorem claim_c8_roundtrip_witness :
    parse_chat_messages (renderTranscript (parse_chat_messages
        (strL "USER PROMPT:\nHello\n\nGROK RESPONSE:\nYo"))) =
      parse_chat_messages (strL "USER PROMPT:\nHello\n\nGROK RESPONSE:\nYo") :=
  claim_c8_roundtrip (strL "USER PROMPT:\nHello\n\nGROK RESPONSE:\nYo") (by decide)

end Gchat
